import Mathlib

/-!
Verification development for the Shuriken (shk) build executor.

The repository snapshot under verification contains the public headers
(`src/src/fingerprint.h`, `src/src/persistent_invocation_log.h`), the
declaration of `InMemoryInvocationLog`, and the unit tests of the pooled
command runner, but not the `.cpp` implementation files of the
fingerprinting subsystem, the persistent invocation log, or the pooled
command runner.  Those operations are therefore modelled from the
specification (sections 4.3, 4.4 and 4.7 of the spec), faithful to its
words; each such definition is marked `Modelled from the spec:`.
-/

namespace Shuriken

/-- Modelled from the spec: the error raised by failed file-system
operations (`IoError`, spec section 7).  The model only needs one
constructor because all I/O failures are treated alike by the claims. -/
inductive IoError where
  | ioError
deriving DecidableEq, Repr

/-- Content hashes and step-identity hashes (`Hash`, a fixed-width
20-byte array supporting equality and ordering) are abstracted as natural
numbers below `2 ^ 160`.  The all-zero-byte hash is `0`. -/
abbrev Hash := Nat

/-- The hash value consisting of 20 zero bytes. -/
def zeroHash : Hash := 0

/-- Modelled from the spec: the stat subset stored in a fingerprint
(`Fingerprint::Stat` in `fingerprint.h`; the `exists` flag follows the
spec data model, `couldAccess()` in the header).  `st_dev` is omitted,
as in the source. -/
structure FStat where
  size : Nat
  ino : Nat
  mode : Nat
  mtime : Int
  ctime : Int
  fexists : Bool
deriving DecidableEq, Repr

/-- The stat subset recorded for a path that could not be stat-ed:
every numeric field is zero and the existence flag is false. -/
def emptyFStat : FStat := ⟨0, 0, 0, 0, 0, false⟩

/-- Probe for the directory bit exactly as `S_ISDIR` does:
`(mode & S_IFMT) == S_IFDIR` with `S_IFMT = 0o170000` and
`S_IFDIR = 0o040000`. -/
def FStat.isDir (s : FStat) : Bool := (s.mode &&& 61440) == 16384

/-- The `Fingerprint` stored in the invocation log: stat subset,
timestamp of capture, and content hash (`fingerprint.h`). -/
structure Fingerprint where
  stat : FStat
  timestamp : Int
  hash : Hash
deriving DecidableEq, Repr

/-- The result of `fingerprintMatches` (`MatchesResult` in
`fingerprint.h`): whether the file is clean and whether the decision
required a content hash, so refreshing the fingerprint would pay off. -/
structure MatchesResult where
  clean : Bool
  should_update : Bool
deriving DecidableEq, Repr

/-- Data held by a live file-system node: the byte contents of a regular
file, or the entry names of a directory. -/
inductive FSData where
  | fileData (contents : List Nat)
  | dirData (entryNames : List String)
deriving DecidableEq, Repr

/-- Stat metadata of a live file-system node (sizes and times; the
permission bits are kept separately from the file-type bits, which are
derived from the node kind). -/
structure FSMeta where
  size : Nat
  ino : Nat
  perm : Nat
  mtime : Int
  ctime : Int
deriving DecidableEq, Repr

/-- Modelled from the spec: the `FileSystem` collaborator as the
fingerprinting code sees it.  `entries` gives the current node at a path
(or `none` when stat fails with not-found) and `ioErr` marks paths on
which any I/O operation fails with an error other than not-found. -/
structure FileSystem where
  entries : String → Option (FSMeta × FSData)
  ioErr : String → Bool

/-- Mode word of a node: the file-type bits from the node kind plus the
low permission bits. -/
def FSData.modeBits : FSData → Nat
  | .fileData _ => 32768
  | .dirData _ => 16384

/-- The stat subset currently observed at a path: all-zero with
`fexists = false` when the path does not exist. -/
def FileSystem.statSubset (fs : FileSystem) (path : String) : FStat :=
  match fs.entries path with
  | none => emptyFStat
  | some (m, d) => ⟨m.size, m.ino, d.modeBits + m.perm % 4096, m.mtime, m.ctime, true⟩

/-- An arbitrary but fixed executable byte-sequence hash standing in for
the real cryptographic hash. -/
def hashBytes (bytes : List Nat) : Hash :=
  bytes.foldl (fun a b => a * 256 + b % 256 + 1) 1

/-- Hash of a list of strings, used for directory listings. -/
def hashStrings (names : List String) : Hash :=
  hashBytes (names.foldr (fun s acc => s.toList.map Char.toNat ++ 0 :: acc) [])

/-- Insert a string into a sorted list of strings. -/
def insertSorted (s : String) : List String → List String
  | [] => [s]
  | x :: xs => if s ≤ x then s :: x :: xs else x :: insertSorted s xs

/-- Sort a list of strings (insertion sort). -/
def sortStrings (names : List String) : List String :=
  names.foldr insertSorted []

/-- Modelled from the spec: the content hash the fingerprinting code
computes for a path (spec 4.3 `take`): hash of the contents for a
regular file, hash of the sorted entry names for a directory, and the
zero hash for a missing path. -/
def FileSystem.contentHash (fs : FileSystem) (path : String) : Hash :=
  match fs.entries path with
  | none => zeroHash
  | some (_, .fileData c) => hashBytes c
  | some (_, .dirData names) => hashStrings (sortStrings names)

/-- Modelled from the spec: `takeFingerprint` minus error plumbing
(spec 4.3 `take`): record the current stat subset, the supplied
timestamp, and the content hash. -/
def takeFp (fs : FileSystem) (now : Int) (path : String) : Fingerprint :=
  ⟨fs.statSubset path, now, fs.contentHash path⟩

/-- Modelled from the spec: `takeFingerprint` from `fingerprint.h`.
Stat failing with not-found is not an error (it yields an
`fexists = false` fingerprint with a zero hash); other I/O failures
raise `IoError`. -/
def takeFingerprint (fs : FileSystem) (now : Int) (path : String) :
    Except IoError Fingerprint :=
  if fs.ioErr path then .error .ioError else .ok (takeFp fs now path)

/-- Modelled from the spec: the racy-stat decision of
`fingerprintMatches` (spec 4.3, steps 1-5), on an already-obtained
current stat subset and (lazily used) current content hash.  The second
component of the result records whether the content hash was consulted. -/
def fingerprintMatchesCore (cur : FStat) (curHash : Hash) (fp : Fingerprint) :
    MatchesResult × Bool :=
  if cur.fexists ≠ fp.stat.fexists then (⟨false, false⟩, false)
  else if cur.fexists = false then (⟨true, false⟩, false)
  else if cur.isDir ≠ fp.stat.isDir then (⟨false, false⟩, false)
  else if cur = fp.stat ∧ 1 ≤ fp.timestamp - max fp.stat.mtime fp.stat.ctime then
    (⟨true, false⟩, false)
  else if curHash = fp.hash then (⟨true, true⟩, true)
  else (⟨false, true⟩, true)

/-- Modelled from the spec: `fingerprintMatches` from `fingerprint.h`,
together with the flag telling whether the (expensive) content hash was
computed. -/
def fingerprintMatchesFull (fs : FileSystem) (path : String) (fp : Fingerprint) :
    Except IoError (MatchesResult × Bool) :=
  if fs.ioErr path then .error .ioError
  else .ok (fingerprintMatchesCore (fs.statSubset path) (fs.contentHash path) fp)

/-- Modelled from the spec: `fingerprintMatches` from `fingerprint.h`. -/
def fingerprintMatches (fs : FileSystem) (path : String) (fp : Fingerprint) :
    Except IoError MatchesResult :=
  (fingerprintMatchesFull fs path fp).map Prod.fst

/-- Modelled from the spec: `retakeFingerprint` minus error plumbing
(spec 4.3 `retake`): reuse the old fingerprint when it is clean and does
not ask for an update, otherwise take a fresh fingerprint. -/
def retakeFp (fs : FileSystem) (now : Int) (path : String) (old : Fingerprint) :
    Fingerprint :=
  let r := (fingerprintMatchesCore (fs.statSubset path) (fs.contentHash path) old).1
  if r.clean = true ∧ r.should_update = false then old else takeFp fs now path

/-- Modelled from the spec: `retakeFingerprint` from `fingerprint.h`. -/
def retakeFingerprint (fs : FileSystem) (now : Int) (path : String)
    (old : Fingerprint) : Except IoError Fingerprint :=
  if fs.ioErr path then .error .ioError else .ok (retakeFp fs now path old)

deriving instance DecidableEq for Except

/-- A file system with no entries and no I/O errors. -/
def fsEmpty : FileSystem := ⟨fun _ => none, fun _ => false⟩

/-- A fingerprint of a missing path taken at time zero. -/
def fpMissing : Fingerprint := ⟨emptyFStat, 0, zeroHash⟩

/-- Claim C1, counterexample: for a path that does not exist and a stored
fingerprint of a non-existent file taken at time 0, existence and
is-directory agree and the certainly-clean condition (stat equal and age
at least one second) fails, so the claim demands a content-hash
comparison with `should_update = true`; the code instead answers
`{clean := true, should_update := false}` without computing any hash,
because a file that is absent on both sides is clean unconditionally. -/
theorem c1_matches_counterexample :
    (fsEmpty.statSubset "a").fexists = fpMissing.stat.fexists ∧
    (fsEmpty.statSubset "a").isDir = fpMissing.stat.isDir ∧
    ¬(fsEmpty.statSubset "a" = fpMissing.stat ∧
        1 ≤ fpMissing.timestamp - max fpMissing.stat.mtime fpMissing.stat.ctime) ∧
    fingerprintMatchesFull fsEmpty "a" fpMissing = .ok (⟨true, false⟩, false) ∧
    fingerprintMatchesFull fsEmpty "a" fpMissing ≠
      .ok (⟨decide (fsEmpty.contentHash "a" = fpMissing.hash), true⟩, true) := by
  refine ⟨rfl, rfl, by decide, rfl, by decide⟩

/-- Claim C1 (amended): `fingerprintMatches` implements the racy-stat
decision: if the current stat subset equals the stored one in every
field and the fingerprint is at least one second older than the recorded
mtime/ctime, the result is `{clean := true, should_update := false}`
with no content hash computed; in every other case where existence and
is-directory agree and the file exists, the content hash is computed and
the result is `{clean := hash equals stored hash, should_update := true}`.
(When the file is absent on both sides the result is
`{clean := true, should_update := false}` without hashing, regardless of
stat equality or age.) -/
theorem c1_matches_racy_stat (fs : FileSystem) (path : String) (fp : Fingerprint)
    (hio : fs.ioErr path = false) :
    (fs.statSubset path = fp.stat →
      1 ≤ fp.timestamp - max fp.stat.mtime fp.stat.ctime →
      fingerprintMatchesFull fs path fp = .ok (⟨true, false⟩, false)) ∧
    ((fs.statSubset path).fexists = fp.stat.fexists →
      (fs.statSubset path).isDir = fp.stat.isDir →
      (fs.statSubset path).fexists = true →
      ¬(fs.statSubset path = fp.stat ∧
          1 ≤ fp.timestamp - max fp.stat.mtime fp.stat.ctime) →
      fingerprintMatchesFull fs path fp =
        .ok (⟨decide (fs.contentHash path = fp.hash), true⟩, true)) := by
  unfold fingerprintMatchesFull
  rw [hio]
  simp only [Bool.false_eq_true, if_false]
  constructor
  · intro heq hage
    unfold fingerprintMatchesCore
    rw [heq]
    by_cases hex : fp.stat.fexists
    · simp [hex, heq, hage]
    · simp [hex]
  · intro hex hdir hext hnot
    have hext' : fp.stat.fexists = true := by rw [← hex]; exact hext
    unfold fingerprintMatchesCore
    rw [hex, hdir]
    simp only [ne_eq, not_true_eq_false, if_false, hext', Bool.true_eq_false]
    rw [if_neg hnot]
    by_cases hh : fs.contentHash path = fp.hash
    · simp [hh]
    · simp [hh]

/-- Claim C1, witness for the amended theorem: on a concrete file system
holding one regular file, both branches are exercised: a fresh-looking
old fingerprint forces hashing and a stat-identical aged fingerprint is
trusted without hashing. -/
def fsOneFile : FileSystem :=
  ⟨fun p => if p = "f" then some (⟨3, 7, 420, 10, 10⟩, .fileData [1, 2, 3]) else none,
   fun _ => false⟩

/-- The fingerprint `takeFp fsOneFile 20 "f"` written out. -/
def fpOneFile : Fingerprint := takeFp fsOneFile 20 "f"

/-- Claim C1 witness: the amended theorem applied at a concrete input. -/
theorem c1_matches_racy_stat_witness :
    fingerprintMatchesFull fsOneFile "f" fpOneFile = .ok (⟨true, false⟩, false) :=
  (c1_matches_racy_stat fsOneFile "f" fpOneFile rfl).1 rfl (by decide)

/-- Claim C4: `retakeFingerprint` is an optimisation of `takeFingerprint`:
when `fingerprintMatches` on the old fingerprint answers clean without
asking for an update, it returns the old fingerprint unchanged; in every
other situation (including an I/O error, where both raise) it returns
exactly what `takeFingerprint` would return. -/
theorem c4_retake_refinement (fs : FileSystem) (now : Int) (path : String)
    (old : Fingerprint) :
    (∀ r, fingerprintMatches fs path old = .ok r → r.clean = true →
      r.should_update = false → retakeFingerprint fs now path old = .ok old) ∧
    (∀ r, fingerprintMatches fs path old = .ok r →
      ¬(r.clean = true ∧ r.should_update = false) →
      retakeFingerprint fs now path old = takeFingerprint fs now path) ∧
    (∀ e, fingerprintMatches fs path old = .error e →
      retakeFingerprint fs now path old = takeFingerprint fs now path) := by
  cases hio : fs.ioErr path with
  | true =>
    refine ⟨?_, ?_, ?_⟩
    · intro r hr
      simp [fingerprintMatches, fingerprintMatchesFull, Except.map, hio] at hr
    · intro r hr
      simp [fingerprintMatches, fingerprintMatchesFull, Except.map, hio] at hr
    · intro e _
      simp [retakeFingerprint, takeFingerprint, hio]
  | false =>
    refine ⟨?_, ?_, ?_⟩
    · intro r hr hc hu
      have hr' : (fingerprintMatchesCore (fs.statSubset path) (fs.contentHash path) old).1 = r := by
        simpa [fingerprintMatches, fingerprintMatchesFull, Except.map, hio] using hr
      simp [retakeFingerprint, retakeFp, hio, hr', hc, hu]
    · intro r hr hne
      have hr' : (fingerprintMatchesCore (fs.statSubset path) (fs.contentHash path) old).1 = r := by
        simpa [fingerprintMatches, fingerprintMatchesFull, Except.map, hio] using hr
      have hne' : ¬((fingerprintMatchesCore (fs.statSubset path) (fs.contentHash path) old).1.clean = true ∧
          (fingerprintMatchesCore (fs.statSubset path) (fs.contentHash path) old).1.should_update = false) := by
        rw [hr']; exact hne
      simp [retakeFingerprint, retakeFp, takeFingerprint, hio, hne']
    · intro e he
      simp [fingerprintMatches, fingerprintMatchesFull, Except.map, hio] at he

/-- Claim C4 witness: the refinement theorem applied at a concrete input
where the old fingerprint is clean and needs no update. -/
theorem c4_retake_refinement_witness :
    retakeFingerprint fsOneFile 25 "f" fpOneFile = .ok fpOneFile :=
  (c4_retake_refinement fsOneFile 25 "f" fpOneFile).1 ⟨true, false⟩ (by decide) rfl rfl

/-- Claim C5: taking a fingerprint and immediately matching it against an
unchanged file system always reports clean, and when the fingerprint is
at least one second older than the recorded mtime/ctime it also reports
`should_update = false`. -/
theorem c5_take_matches_roundtrip (fs : FileSystem) (now : Int) (path : String)
    (fp : Fingerprint) (htake : takeFingerprint fs now path = .ok fp) :
    ∃ su, fingerprintMatches fs path fp = .ok ⟨true, su⟩ ∧
      (1 ≤ now - max fp.stat.mtime fp.stat.ctime → su = false) := by
  cases hio : fs.ioErr path with
  | true => simp [takeFingerprint, hio] at htake
  | false =>
    simp [takeFingerprint, hio] at htake
    subst htake
    simp only [fingerprintMatches, fingerprintMatchesFull, hio, Bool.false_eq_true,
      if_false, Except.map]
    unfold fingerprintMatchesCore takeFp
    by_cases hex : (fs.statSubset path).fexists
    · by_cases hage : 1 ≤ now - max (fs.statSubset path).mtime (fs.statSubset path).ctime
      · exact ⟨false, by simp [Except.map, hex, hage], fun _ => rfl⟩
      · exact ⟨true, by simp [Except.map, hex, hage], fun h => absurd h hage⟩
    · exact ⟨false, by simp [Except.map, hex], fun _ => rfl⟩

/-- Claim C5 witness: the round-trip theorem applied at a concrete file. -/
theorem c5_take_matches_roundtrip_witness :
    ∃ su, fingerprintMatches fsOneFile "f" fpOneFile = .ok ⟨true, su⟩ ∧
      (1 ≤ (20 : Int) - max fpOneFile.stat.mtime fpOneFile.stat.ctime → su = false) :=
  c5_take_matches_roundtrip fsOneFile 20 "f" fpOneFile rfl

/-- Claim C9: `takeFingerprint` on a path whose stat fails with not-found
returns a fingerprint recording non-existence, an all-zero content hash
and `timestamp = now`; it raises an error exactly on I/O errors other
than not-found; for an existing regular file it hashes the contents, and
for a directory it hashes the sorted entry names. -/
theorem c9_take_error_handling (fs : FileSystem) (now : Int) (path : String) :
    (fs.entries path = none → fs.ioErr path = false →
      takeFingerprint fs now path = .ok ⟨emptyFStat, now, zeroHash⟩) ∧
    (fs.ioErr path = true → takeFingerprint fs now path = .error .ioError) ∧
    (fs.ioErr path = false → ∀ m c, fs.entries path = some (m, .fileData c) →
      takeFingerprint fs now path =
        .ok ⟨⟨m.size, m.ino, 32768 + m.perm % 4096, m.mtime, m.ctime, true⟩, now,
          hashBytes c⟩) ∧
    (fs.ioErr path = false → ∀ m names, fs.entries path = some (m, .dirData names) →
      takeFingerprint fs now path =
        .ok ⟨⟨m.size, m.ino, 16384 + m.perm % 4096, m.mtime, m.ctime, true⟩, now,
          hashStrings (sortStrings names)⟩) := by
  refine ⟨?_, ?_, ?_, ?_⟩
  · intro hent hio
    simp [takeFingerprint, takeFp, FileSystem.statSubset, FileSystem.contentHash,
      hio, hent]
  · intro hio
    simp [takeFingerprint, hio]
  · intro hio m c hent
    simp [takeFingerprint, takeFp, FileSystem.statSubset, FileSystem.contentHash,
      hio, hent, FSData.modeBits]
  · intro hio m names hent
    simp [takeFingerprint, takeFp, FileSystem.statSubset, FileSystem.contentHash,
      hio, hent, FSData.modeBits]

/-- Claim C9 witness: the error-handling theorem applied at concrete
inputs covering a missing path and an existing regular file. -/
theorem c9_take_error_handling_witness :
    takeFingerprint fsEmpty 7 "gone" = .ok ⟨emptyFStat, 7, zeroHash⟩ ∧
    takeFingerprint fsOneFile 9 "f" =
      .ok ⟨⟨3, 7, 32768 + 420 % 4096, 10, 10, true⟩, 9, hashBytes [1, 2, 3]⟩ :=
  ⟨(c9_take_error_handling fsEmpty 7 "gone").1 rfl rfl,
   (c9_take_error_handling fsOneFile 9 "f").2.2.1 rfl ⟨3, 7, 420, 10, 10⟩ [1, 2, 3] rfl⟩

/-!
The persistent invocation log (`persistent_invocation_log.h`).  The log
file is a byte sequence: a header (magic prefix plus a `u32` schema
version) followed by records framed by a `u32` whose low two bits encode
the record kind and whose remaining bits encode the payload byte length,
payloads padded to 4-byte alignment.  Paths mirror C++ `std::string`s as
byte lists.  The machine-specific POD layout of `Fingerprint` chosen by
the model is fixed little-endian: stat (size 8, ino 8, mode 4, mtime 8,
ctime 8, exists-flag 4 bytes), timestamp 8, hash 20 — 68 bytes.
-/

/-- Paths as the byte strings C++ `std::string` holds. -/
abbrev PathB := List Nat

/-- Little-endian encoding of a natural number into `k` bytes. -/
def leBytes : Nat → Nat → List Nat
  | 0, _ => []
  | k + 1, n => n % 256 :: leBytes k (n / 256)

/-- Little-endian decoding of a byte list into a natural number. -/
def leDec : List Nat → Nat
  | [] => 0
  | b :: bs => b + 256 * leDec bs

theorem leBytes_length (k n : Nat) : (leBytes k n).length = k := by
  induction k generalizing n with
  | zero => rfl
  | succ k ih => simp [leBytes, ih]

theorem leDec_leBytes (k n : Nat) (h : n < 256 ^ k) : leDec (leBytes k n) = n := by
  induction k generalizing n with
  | zero =>
    simp only [Nat.pow_zero, Nat.lt_one_iff] at h
    simp [leBytes, leDec, h]
  | succ k ih =>
    have hdiv : n / 256 < 256 ^ k := by
      rw [Nat.div_lt_iff_lt_mul (by norm_num)]
      calc n < 256 ^ (k + 1) := h
        _ = 256 ^ k * 256 := by ring
    simp [leBytes, leDec, ih (n / 256) hdiv]
    omega

/-- Two's-complement little-endian encoding of a 64-bit signed value. -/
def encI64 (x : Int) : List Nat := leBytes 8 (x % (2 ^ 64 : Int)).toNat

/-- Decoding of a two's-complement 64-bit little-endian value. -/
def decI64 (b : List Nat) : Int :=
  if leDec (b.take 8) < 2 ^ 63 then (leDec (b.take 8) : Int)
  else (leDec (b.take 8) : Int) - 2 ^ 64

theorem encI64_length (x : Int) : (encI64 x).length = 8 := leBytes_length 8 _

theorem decI64_encI64 (x : Int) (h1 : -(2 ^ 63) ≤ x) (h2 : x < 2 ^ 63) :
    decI64 (encI64 x) = x := by
  unfold decI64 encI64
  rw [List.take_of_length_le (le_of_eq (leBytes_length 8 _))]
  have hmod : (0 : Int) ≤ x % (2 ^ 64 : Int) ∧ x % (2 ^ 64 : Int) < 2 ^ 64 := by
    constructor
    · exact Int.emod_nonneg x (by norm_num)
    · exact Int.emod_lt_of_pos x (by norm_num)
  rw [leDec_leBytes 8 _ (by omega)]
  have hx : x % (2 ^ 64 : Int) = x ∨ x % (2 ^ 64 : Int) = x + 2 ^ 64 := by omega
  split_ifs <;> omega

/-- Split off the first `k` bytes of a byte list. -/
def readN (k : Nat) (b : List Nat) : List Nat × List Nat := (b.take k, b.drop k)

theorem readN_exact (k : Nat) (l r : List Nat) (h : l.length = k) :
    readN k (l ++ r) = (l, r) := by
  simp [readN, List.take_left' h, List.drop_left' h]

/-- Bounds under which the numeric fields of a stat subset fit their
on-disk widths. -/
def FStat.InRange (s : FStat) : Prop :=
  s.size < 2 ^ 64 ∧ s.ino < 2 ^ 64 ∧ s.mode < 2 ^ 32 ∧
  -(2 ^ 63) ≤ s.mtime ∧ s.mtime < 2 ^ 63 ∧ -(2 ^ 63) ≤ s.ctime ∧ s.ctime < 2 ^ 63

/-- Bounds under which all fields of a fingerprint fit their on-disk
widths. -/
def Fingerprint.InRange (fp : Fingerprint) : Prop :=
  fp.stat.InRange ∧ -(2 ^ 63) ≤ fp.timestamp ∧ fp.timestamp < 2 ^ 63 ∧
  fp.hash < 2 ^ 160

instance (s : FStat) : Decidable s.InRange := by unfold FStat.InRange; infer_instance

instance (fp : Fingerprint) : Decidable fp.InRange := by
  unfold Fingerprint.InRange; infer_instance

/-- On-disk POD image of a stat subset: 40 little-endian bytes. -/
def encFStat (s : FStat) : List Nat :=
  leBytes 8 s.size ++ (leBytes 8 s.ino ++ (leBytes 4 s.mode ++
    (encI64 s.mtime ++ (encI64 s.ctime ++ leBytes 4 (if s.fexists then 1 else 0)))))

/-- Decoding of the 40-byte stat-subset image. -/
def decFStat (bytes : List Nat) : FStat :=
  match readN 8 bytes with
  | (szB, r1) =>
    match readN 8 r1 with
    | (inoB, r2) =>
      match readN 4 r2 with
      | (modeB, r3) =>
        match readN 8 r3 with
        | (mtB, r4) =>
          match readN 8 r4 with
          | (ctB, r5) =>
            match readN 4 r5 with
            | (exB, _) =>
              ⟨leDec szB, leDec inoB, leDec modeB, decI64 mtB, decI64 ctB,
               leDec exB != 0⟩

theorem encFStat_length (s : FStat) : (encFStat s).length = 40 := by
  simp [encFStat, leBytes_length, encI64_length]

theorem decFStat_encFStat (s : FStat) (rest : List Nat) (h : s.InRange) :
    decFStat (encFStat s ++ rest) = s := by
  obtain ⟨h1, h2, h3, h4, h5, h6, h7⟩ := h
  unfold encFStat decFStat
  simp only [List.append_assoc]
  rw [readN_exact 8 _ _ (leBytes_length 8 _)]
  dsimp only
  rw [readN_exact 8 _ _ (leBytes_length 8 _)]
  dsimp only
  rw [readN_exact 4 _ _ (leBytes_length 4 _)]
  dsimp only
  rw [readN_exact 8 _ _ (encI64_length _)]
  dsimp only
  rw [readN_exact 8 _ _ (encI64_length _)]
  dsimp only
  rw [readN_exact 4 _ _ (leBytes_length 4 _)]
  dsimp only
  rw [leDec_leBytes 8 _ h1, leDec_leBytes 8 _ h2, leDec_leBytes 4 _ h3,
    decI64_encI64 _ h4 h5, decI64_encI64 _ h6 h7]
  cases hex : s.fexists with
  | true => simp [leDec_leBytes 4 1 (by norm_num), hex]; rw [← hex]
  | false => simp [leDec_leBytes 4 0 (by norm_num), hex]; rw [← hex]

/-- On-disk POD image of a fingerprint: 68 little-endian bytes. -/
def encFp (fp : Fingerprint) : List Nat :=
  encFStat fp.stat ++ (encI64 fp.timestamp ++ leBytes 20 fp.hash)

/-- Decoding of the 68-byte fingerprint image. -/
def decFp (bytes : List Nat) : Fingerprint :=
  match readN 40 bytes with
  | (statB, r1) =>
    match readN 8 r1 with
    | (tsB, r2) =>
      match readN 20 r2 with
      | (hB, _) => ⟨decFStat statB, decI64 tsB, leDec hB⟩

theorem encFp_length (fp : Fingerprint) : (encFp fp).length = 68 := by
  simp [encFp, encFStat_length, encI64_length, leBytes_length]

theorem decFp_encFp (fp : Fingerprint) (rest : List Nat) (h : fp.InRange) :
    decFp (encFp fp ++ rest) = fp := by
  obtain ⟨hs, h1, h2, h3⟩ := h
  unfold encFp decFp
  simp only [List.append_assoc]
  rw [readN_exact 40 _ _ (encFStat_length _)]
  dsimp only
  rw [readN_exact 8 _ _ (encI64_length _)]
  dsimp only
  rw [readN_exact 20 _ _ (leBytes_length 20 _)]
  dsimp only
  rw [decI64_encI64 _ h1 h2, leDec_leBytes 20 _ h3]
  have : decFStat (encFStat fp.stat) = fp.stat := by
    have := decFStat_encFStat fp.stat [] hs
    simpa using this
  rw [this]

/-- Serialization of the `(path record id, fingerprint)` pair list of an
invocation record. -/
def encPairs : List (Nat × Fingerprint) → List Nat
  | [] => []
  | (i, fp) :: rest => leBytes 4 i ++ (encFp fp ++ encPairs rest)

/-- Decoding of `k` consecutive `(path record id, fingerprint)` pairs. -/
def decPairs : Nat → List Nat → List (Nat × Fingerprint)
  | 0, _ => []
  | k + 1, bytes =>
    match readN 4 bytes with
    | (iB, r1) =>
      match readN 68 r1 with
      | (fpB, r2) => (leDec iB, decFp fpB) :: decPairs k r2

theorem encPairs_length (l : List (Nat × Fingerprint)) :
    (encPairs l).length = 72 * l.length := by
  induction l with
  | nil => rfl
  | cons hd tl ih =>
    obtain ⟨i, fp⟩ := hd
    simp [encPairs, leBytes_length, encFp_length, ih]
    ring

theorem decPairs_encPairs (l : List (Nat × Fingerprint)) (rest : List Nat)
    (h : ∀ pr ∈ l, pr.1 < 2 ^ 32 ∧ pr.2.InRange) :
    decPairs l.length (encPairs l ++ rest) = l := by
  induction l generalizing rest with
  | nil => rfl
  | cons hd tl ih =>
    obtain ⟨i, fp⟩ := hd
    have hhd := h (i, fp) (List.mem_cons_self _ _)
    unfold encPairs decPairs
    simp only [List.append_assoc, List.length_cons]
    rw [readN_exact 4 _ _ (leBytes_length 4 _)]
    dsimp only
    rw [readN_exact 68 _ _ (encFp_length _)]
    dsimp only
    rw [leDec_leBytes 4 _ hhd.1]
    have hfp : decFp (encFp fp) = fp := by
      have := decFp_encFp fp [] hhd.2
      simpa using this
    rw [hfp, ih rest (fun pr hpr => h pr (List.mem_cons_of_mem _ hpr))]

/-- An invocation log entry (`Invocations::Entry` / the payload of
`ranCommand`): the fingerprinted output files followed by the
fingerprinted input files. -/
structure Entry where
  output_files : List (PathB × Fingerprint)
  input_files : List (PathB × Fingerprint)
deriving DecidableEq, Repr

/-- The logical state stored in an invocation log (`Invocations`):
the entries keyed by step identity hash and the live created
directories. -/
structure Invocations where
  entries : List (Hash × Entry)
  created_directories : List PathB
deriving DecidableEq, Repr

/-- Record a created directory; idempotent when already recorded. -/
def insertDir (p : PathB) (ds : List PathB) : List PathB :=
  if p ∈ ds then ds else ds ++ [p]

/-- Forget a created directory; a no-op when not recorded. -/
def removeDir (p : PathB) (ds : List PathB) : List PathB :=
  ds.filter (fun q => q != p)

/-- Delete the entry stored for a step identity hash. -/
def eraseEntry (h : Hash) (es : List (Hash × Entry)) : List (Hash × Entry) :=
  es.filter (fun pr => pr.1 != h)

/-- Store an entry for a step identity hash, overwriting any prior
record for that identity. -/
def upsertEntry (h : Hash) (e : Entry) (es : List (Hash × Entry)) :
    List (Hash × Entry) :=
  eraseEntry h es ++ [(h, e)]

/-- The memory-backed invocation log (`InMemoryInvocationLog` in the
source): an entry map and a created-directory set. -/
structure InMemoryInvocationLog where
  entries : List (Hash × Entry)
  created_directories : List PathB
deriving DecidableEq, Repr

/-- The in-memory log with nothing recorded. -/
def imEmpty : InMemoryInvocationLog := ⟨[], []⟩

/-- `InMemoryInvocationLog::createdDirectory`. -/
def imCreatedDirectory (m : InMemoryInvocationLog) (p : PathB) :
    InMemoryInvocationLog :=
  { m with created_directories := insertDir p m.created_directories }

/-- `InMemoryInvocationLog::ranCommand`: overwrites any prior record for
the same step identity. -/
def imRanCommand (m : InMemoryInvocationLog) (h : Hash) (e : Entry) :
    InMemoryInvocationLog :=
  { m with entries := upsertEntry h e m.entries }

/-- `InMemoryInvocationLog::cleanedCommand`: logically deletes the entry
for the identity. -/
def imCleanedCommand (m : InMemoryInvocationLog) (h : Hash) :
    InMemoryInvocationLog :=
  { m with entries := eraseEntry h m.entries }

/-- What the parser remembers about an already-read record: the path it
introduced, the directory it created, or nothing id-addressable. -/
inductive RecMeta where
  | pathRec (p : PathB)
  | dirRec (p : PathB)
  | otherRec
deriving DecidableEq, Repr

/-- Modelled from the spec: the parser state while streaming the log —
the record-id indexed metadata vector, the live created directories and
the live entries. -/
structure PState where
  recs : List RecMeta
  dirs : List PathB
  entries : List (Hash × Entry)
deriving DecidableEq, Repr

/-- The parser state before any record has been read. -/
def pInit : PState := ⟨[], [], []⟩

/-- Resolve the path record ids of decoded pairs against the records
read so far; fails on any id that is not an earlier Path record. -/
def resolvePairs (recs : List RecMeta) :
    List (Nat × Fingerprint) → Option (List (PathB × Fingerprint))
  | [] => some []
  | (i, fp) :: rest =>
    match recs[i]?, resolvePairs recs rest with
    | some (.pathRec p), some tl => some ((p, fp) :: tl)
    | _, _ => none

/-- Modelled from the spec: interpret one framed record against the
parser state (spec section 4.4, record kinds 0-3).  `none` means the
record is invalid — a bad payload length for its kind or a record-id
reference that does not resolve to an earlier record of the required
type — and the parser must truncate at this record. -/
def applyRecord (st : PState) (kind : Nat) (payload : List Nat) : Option PState :=
  if kind = 0 then
    let p := payload.takeWhile (fun b => b != 0)
    if p.length < payload.length then
      some { st with recs := st.recs ++ [.pathRec p] }
    else none
  else if kind = 1 then
    if payload.length = 4 then
      match st.recs[leDec payload]? with
      | some (.pathRec p) =>
        some { st with recs := st.recs ++ [.dirRec p], dirs := insertDir p st.dirs }
      | _ => none
    else none
  else if kind = 2 then
    if 24 ≤ payload.length ∧ (payload.length - 24) % 72 = 0 then
      if leDec ((payload.drop 20).take 4) ≤ (payload.length - 24) / 72 then
        match resolvePairs st.recs (decPairs ((payload.length - 24) / 72) (payload.drop 24)) with
        | some pairs =>
          some { st with
            recs := st.recs ++ [.otherRec],
            entries := upsertEntry (leDec (payload.take 20))
              ⟨pairs.take (leDec ((payload.drop 20).take 4)),
               pairs.drop (leDec ((payload.drop 20).take 4))⟩ st.entries }
        | none => none
      else none
    else none
  else if kind = 3 then
    if payload.length = 4 then
      match st.recs[leDec payload]? with
      | some (.dirRec p) =>
        some { st with recs := st.recs ++ [.otherRec], dirs := removeDir p st.dirs }
      | _ => none
    else if payload.length = 20 then
      some { st with
        recs := st.recs ++ [.otherRec],
        entries := eraseEntry (leDec payload) st.entries }
    else none
  else none

/-- Modelled from the spec: stream the records of a log file (spec
section 4.4, parser).  Returns the final state, the number of bytes
consumed by well-formed records, and whether the rest of the input had
to be discarded (a short trailing header, an invalid length, or an
invalid record). -/
def parseRecords (st : PState) (bytes : List Nat) : PState × Nat × Bool :=
  if h0 : bytes.length = 0 then (st, 0, false)
  else if h4 : bytes.length < 4 then (st, 0, true)
  else
    if hsz : (leDec (bytes.take 4) / 4) % 4 = 0 ∧
        4 + leDec (bytes.take 4) / 4 ≤ bytes.length then
      match applyRecord st (leDec (bytes.take 4) % 4)
          ((bytes.drop 4).take (leDec (bytes.take 4) / 4)) with
      | none => (st, 0, true)
      | some st' =>
        let r := parseRecords st' (bytes.drop (4 + leDec (bytes.take 4) / 4))
        (r.1, 4 + leDec (bytes.take 4) / 4 + r.2.1, r.2.2)
    else (st, 0, true)
termination_by bytes.length
decreasing_by
  simp only [List.length_drop]
  omega

theorem parseRecords_nil (st : PState) : parseRecords st [] = (st, 0, false) := by
  rw [parseRecords.eq_def]
  simp

theorem parseRecords_short (st : PState) (bytes : List Nat)
    (h0 : ¬bytes.length = 0) (h4 : bytes.length < 4) :
    parseRecords st bytes = (st, 0, true) := by
  rw [parseRecords.eq_def]
  simp [h0, h4]

theorem parseRecords_badsize (st : PState) (bytes : List Nat)
    (h0 : ¬bytes.length = 0) (h4 : ¬bytes.length < 4)
    (hsz : ¬((leDec (bytes.take 4) / 4) % 4 = 0 ∧
      4 + leDec (bytes.take 4) / 4 ≤ bytes.length)) :
    parseRecords st bytes = (st, 0, true) := by
  rw [parseRecords.eq_def]
  simp only [dif_neg h0, dif_neg h4, dif_neg hsz]

theorem parseRecords_badrec (st : PState) (bytes : List Nat)
    (h0 : ¬bytes.length = 0) (h4 : ¬bytes.length < 4)
    (hsz : (leDec (bytes.take 4) / 4) % 4 = 0 ∧
      4 + leDec (bytes.take 4) / 4 ≤ bytes.length)
    (happ : applyRecord st (leDec (bytes.take 4) % 4)
      ((bytes.drop 4).take (leDec (bytes.take 4) / 4)) = none) :
    parseRecords st bytes = (st, 0, true) := by
  rw [parseRecords.eq_def]
  simp only [dif_neg h0, dif_neg h4, dif_pos hsz, happ]

theorem parseRecords_step (st : PState) (bytes : List Nat)
    (h0 : ¬bytes.length = 0) (h4 : ¬bytes.length < 4)
    (hsz : (leDec (bytes.take 4) / 4) % 4 = 0 ∧
      4 + leDec (bytes.take 4) / 4 ≤ bytes.length)
    (st' : PState)
    (happ : applyRecord st (leDec (bytes.take 4) % 4)
      ((bytes.drop 4).take (leDec (bytes.take 4) / 4)) = some st') :
    parseRecords st bytes =
      ((parseRecords st' (bytes.drop (4 + leDec (bytes.take 4) / 4))).1,
       4 + leDec (bytes.take 4) / 4 +
         (parseRecords st' (bytes.drop (4 + leDec (bytes.take 4) / 4))).2.1,
       (parseRecords st' (bytes.drop (4 + leDec (bytes.take 4) / 4))).2.2) := by
  conv_lhs => rw [parseRecords.eq_def]
  simp only [dif_neg h0, dif_neg h4, dif_pos hsz, happ]

theorem parseRecords_consumed (st : PState) (bytes : List Nat) :
    (parseRecords st bytes).2.1 ≤ bytes.length ∧
    ((parseRecords st bytes).2.2 = false ↔
      (parseRecords st bytes).2.1 = bytes.length) := by
  induction st, bytes using parseRecords.induct with
  | case1 st bytes h0 =>
    rw [parseRecords.eq_def]
    simp [h0]
  | case2 st bytes h0 h4 =>
    rw [parseRecords_short st bytes h0 h4]
    simp
    omega
  | case3 st bytes h0 h4 hsz happ =>
    rw [parseRecords_badrec st bytes h0 h4 hsz happ]
    simp
    omega
  | case4 st bytes h0 h4 hsz st' happ ih =>
    rw [parseRecords_step st bytes h0 h4 hsz st' happ]
    simp only [List.length_drop] at ih
    obtain ⟨ihl, ihi⟩ := ih
    dsimp only
    constructor
    · omega
    · constructor
      · intro hf
        have := ihi.mp hf
        omega
      · intro he
        apply ihi.mpr
        omega
  | case5 st bytes h0 h4 hsz =>
    rw [parseRecords_badsize st bytes h0 h4 hsz]
    simp
    omega

theorem parseRecords_take_prefix (st : PState) (bytes : List Nat) :
    parseRecords st (bytes.take (parseRecords st bytes).2.1) =
      ((parseRecords st bytes).1, (parseRecords st bytes).2.1, false) := by
  induction st, bytes using parseRecords.induct with
  | case1 st bytes h0 =>
    have hb : bytes = [] := List.length_eq_zero.mp h0
    subst hb
    rw [parseRecords_nil]
    simp [parseRecords_nil]
  | case2 st bytes h0 h4 =>
    rw [parseRecords_short st bytes h0 h4]
    simp [parseRecords_nil]
  | case3 st bytes h0 h4 hsz happ =>
    rw [parseRecords_badrec st bytes h0 h4 hsz happ]
    simp [parseRecords_nil]
  | case4 st bytes h0 h4 hsz st' happ ih =>
    rw [parseRecords_step st bytes h0 h4 hsz st' happ]
    simp only []
    have hrest := parseRecords_consumed st' (bytes.drop (4 + leDec (bytes.take 4) / 4))
    simp only [List.length_drop] at hrest
    set k := leDec (bytes.take 4) / 4 with hk
    set c := (parseRecords st' (bytes.drop (4 + k))).2.1 with hc
    have hlen4 : (bytes.take (4 + k + c)).length = 4 + k + c := by
      simp only [List.length_take]
      omega
    have htk4 : (bytes.take (4 + k + c)).take 4 = bytes.take 4 := by
      rw [List.take_take]
      congr 1
      omega
    have h0' : ¬(bytes.take (4 + k + c)).length = 0 := by omega
    have h4' : ¬(bytes.take (4 + k + c)).length < 4 := by omega
    have hsz' : (leDec ((bytes.take (4 + k + c)).take 4) / 4) % 4 = 0 ∧
        4 + leDec ((bytes.take (4 + k + c)).take 4) / 4 ≤
          (bytes.take (4 + k + c)).length := by
      rw [htk4, ← hk]
      exact ⟨hsz.1, by omega⟩
    have hpay : (((bytes.take (4 + k + c)).drop 4).take
        (leDec ((bytes.take (4 + k + c)).take 4) / 4)) =
        ((bytes.drop 4).take k) := by
      rw [htk4, ← hk, List.drop_take, List.take_take]
      congr 1
      omega
    have happ' : applyRecord st (leDec ((bytes.take (4 + k + c)).take 4) % 4)
        (((bytes.take (4 + k + c)).drop 4).take
          (leDec ((bytes.take (4 + k + c)).take 4) / 4)) = some st' := by
      rw [hpay, htk4]
      exact happ
    rw [parseRecords_step st (bytes.take (4 + k + c)) h0' h4' hsz' st' happ']
    have hdrop : (bytes.take (4 + k + c)).drop
        (4 + leDec ((bytes.take (4 + k + c)).take 4) / 4) =
        (bytes.drop (4 + k)).take c := by
      rw [htk4, ← hk, List.drop_take]
      congr 1
      omega
    rw [hdrop, htk4, ← hk]
    rw [ih]
  | case5 st bytes h0 h4 hsz =>
    rw [parseRecords_badsize st bytes h0 h4 hsz]
    simp [parseRecords_nil]

theorem parseRecords_append (st : PState) (b1 b2 : List Nat) :
    (parseRecords st b1).2.1 = b1.length → (parseRecords st b1).2.2 = false →
    parseRecords st (b1 ++ b2) =
      ((parseRecords (parseRecords st b1).1 b2).1,
       b1.length + (parseRecords (parseRecords st b1).1 b2).2.1,
       (parseRecords (parseRecords st b1).1 b2).2.2) := by
  induction st, b1 using parseRecords.induct with
  | case1 st b1 h0 =>
    intro hc hf
    have hb : b1 = [] := List.length_eq_zero.mp h0
    subst hb
    simp [parseRecords_nil]
  | case2 st b1 h0 h4 =>
    intro hc hf
    rw [parseRecords_short st b1 h0 h4] at hf
    simp at hf
  | case3 st b1 h0 h4 hsz happ =>
    intro hc hf
    rw [parseRecords_badrec st b1 h0 h4 hsz happ] at hf
    simp at hf
  | case4 st b1 h0 h4 hsz st' happ ih =>
    intro hc hf
    rw [parseRecords_step st b1 h0 h4 hsz st' happ] at hc hf ⊢
    dsimp only at hc hf ⊢
    set k := leDec (b1.take 4) / 4 with hk
    have hk4 : 4 + k ≤ b1.length := hsz.2
    have h0'' : ¬(b1 ++ b2).length = 0 := by
      simp only [List.length_append]
      omega
    have h4'' : ¬(b1 ++ b2).length < 4 := by
      simp only [List.length_append]
      omega
    have htake : (b1 ++ b2).take 4 = b1.take 4 :=
      List.take_append_of_le_length (by omega)
    have hsz'' : (leDec ((b1 ++ b2).take 4) / 4) % 4 = 0 ∧
        4 + leDec ((b1 ++ b2).take 4) / 4 ≤ (b1 ++ b2).length := by
      rw [htake, ← hk]
      simp only [List.length_append]
      exact ⟨hsz.1, by omega⟩
    have hpay : (((b1 ++ b2).drop 4).take (leDec ((b1 ++ b2).take 4) / 4)) =
        ((b1.drop 4).take k) := by
      rw [htake, ← hk, List.drop_append_of_le_length (by omega)]
      exact List.take_append_of_le_length (by simp only [List.length_drop]; omega)
    have happ'' : applyRecord st (leDec ((b1 ++ b2).take 4) % 4)
        (((b1 ++ b2).drop 4).take (leDec ((b1 ++ b2).take 4) / 4)) = some st' := by
      rw [hpay, htake]
      exact happ
    rw [parseRecords_step st (b1 ++ b2) h0'' h4'' hsz'' st' happ'']
    have hdrop : (b1 ++ b2).drop (4 + leDec ((b1 ++ b2).take 4) / 4) =
        b1.drop (4 + k) ++ b2 := by
      rw [htake, ← hk]
      exact List.drop_append_of_le_length (by omega)
    rw [hdrop, htake, ← hk]
    have hlen : (parseRecords st' (b1.drop (4 + k))).2.1 = (b1.drop (4 + k)).length := by
      simp only [List.length_drop]
      omega
    rw [ih hlen hf]
    simp only [List.length_drop, Prod.mk.injEq, true_and, and_true]
    omega
  | case5 st b1 h0 h4 hsz =>
    intro hc hf
    rw [parseRecords_badsize st b1 h0 h4 hsz] at hf
    simp at hf

/-- A framed record: the `u32` header packing payload length and kind in
its low two bits, followed by the payload. -/
def mkRecord (kind : Nat) (payload : List Nat) : List Nat :=
  leBytes 4 (payload.length * 4 + kind) ++ payload

theorem mkRecord_length (kind : Nat) (payload : List Nat) :
    (mkRecord kind payload).length = 4 + payload.length := by
  simp [mkRecord, leBytes_length]

theorem parseRecords_single (st st' : PState) (kind : Nat) (payload : List Nat)
    (hkind : kind < 4) (hpad : payload.length % 4 = 0)
    (hbound : payload.length * 4 + kind < 2 ^ 32)
    (happ : applyRecord st kind payload = some st') :
    parseRecords st (mkRecord kind payload) =
      (st', 4 + payload.length, false) := by
  have hlen := mkRecord_length kind payload
  have htk : (mkRecord kind payload).take 4 = leBytes 4 (payload.length * 4 + kind) :=
    List.take_left' (leBytes_length 4 _)
  have hdec : leDec ((mkRecord kind payload).take 4) = payload.length * 4 + kind := by
    rw [htk]
    exact leDec_leBytes 4 _ (by norm_num at hbound ⊢; omega)
  have hkd : leDec ((mkRecord kind payload).take 4) % 4 = kind := by
    rw [hdec]
    omega
  have hszd : leDec ((mkRecord kind payload).take 4) / 4 = payload.length := by
    rw [hdec]
    omega
  have hdr : (mkRecord kind payload).drop 4 = payload :=
    List.drop_left' (leBytes_length 4 _)
  have h0 : ¬(mkRecord kind payload).length = 0 := by omega
  have h4 : ¬(mkRecord kind payload).length < 4 := by omega
  have hsz : (leDec ((mkRecord kind payload).take 4) / 4) % 4 = 0 ∧
      4 + leDec ((mkRecord kind payload).take 4) / 4 ≤ (mkRecord kind payload).length := by
    rw [hszd]
    omega
  have happ' : applyRecord st (leDec ((mkRecord kind payload).take 4) % 4)
      (((mkRecord kind payload).drop 4).take
        (leDec ((mkRecord kind payload).take 4) / 4)) = some st' := by
    rw [hkd, hszd, hdr, List.take_of_length_le (le_refl _)]
    exact happ
  rw [parseRecords_step st (mkRecord kind payload) h0 h4 hsz st' happ']
  rw [hszd]
  have hdrop : (mkRecord kind payload).drop
      (4 + payload.length) = [] := List.drop_eq_nil_of_le (by omega)
  rw [hdrop, parseRecords_nil]
  simp

/-- Modelled from the spec: the state of an open persistent invocation
log writer — the record bytes appended after the header, the `PathIds`
cache used to avoid duplicating Path records, and the number of records
written (the next record id). -/
structure PWriter where
  recordBytes : List Nat
  pathIds : List (PathB × Nat)
  nRecords : Nat
deriving DecidableEq, Repr

/-- Association-list lookup for the `PathIds` cache. -/
def alookup (p : PathB) : List (PathB × Nat) → Option Nat
  | [] => none
  | (q, i) :: rest => if q = p then some i else alookup p rest

/-- Append one framed record to the log file. -/
def appendRecord (w : PWriter) (kind : Nat) (payload : List Nat) : PWriter :=
  { w with
    recordBytes := w.recordBytes ++ mkRecord kind payload,
    nRecords := w.nRecords + 1 }

/-- A path payload: the path bytes, NUL-terminated and zero-padded to a
4-byte boundary. -/
def padNul (p : PathB) : List Nat := p ++ List.replicate (4 - p.length % 4) 0

/-- Modelled from the spec: make sure a Path record exists for `p`,
appending one and caching its id when the `PathIds` cache has none. -/
def ensurePath (w : PWriter) (p : PathB) : PWriter :=
  match alookup p w.pathIds with
  | some _ => w
  | none =>
    { appendRecord w 0 (padNul p) with pathIds := (p, w.nRecords) :: w.pathIds }

/-- The cached record id of a path (0 when absent, which never happens
after `ensurePath`). -/
def pidOf (w : PWriter) (p : PathB) : Nat := (alookup p w.pathIds).getD 0

/-- Modelled from the spec: `InvocationLog::createdDirectory` of the
persistent writer — ensure the Path record, then append a CreatedDir
record referencing it. -/
def wCreatedDirectory (w : PWriter) (p : PathB) : PWriter :=
  appendRecord (ensurePath w p) 1 (leBytes 4 (pidOf (ensurePath w p) p))

/-- The paths referenced by an entry, outputs first. -/
def entryPathList (e : Entry) : List PathB :=
  (e.output_files ++ e.input_files).map Prod.fst

/-- Ensure Path records for a whole list of paths. -/
def ensurePaths (w : PWriter) : List PathB → PWriter
  | [] => w
  | p :: ps => ensurePaths (ensurePath w p) ps

/-- Modelled from the spec: `InvocationLog::ranCommand` of the
persistent writer — ensure Path records for all referenced paths, then
append an Invocation record: identity hash, output count, and the
`(path id, fingerprint)` pairs, outputs before inputs. -/
def wRanCommand (w : PWriter) (h : Hash) (e : Entry) : PWriter :=
  appendRecord (ensurePaths w (entryPathList e)) 2
    (leBytes 20 h ++ (leBytes 4 e.output_files.length ++
      encPairs ((e.output_files ++ e.input_files).map
        (fun pr => (pidOf (ensurePaths w (entryPathList e)) pr.1, pr.2)))))

/-- Modelled from the spec: `InvocationLog::cleanedCommand` of the
persistent writer — append a Deleted record holding the identity hash. -/
def wCleanedCommand (w : PWriter) (h : Hash) : PWriter :=
  appendRecord w 3 (leBytes 20 h)

/-- The calls a build issues through an invocation log. -/
inductive LogOp where
  | createdDir (p : PathB)
  | ranCmd (h : Hash) (e : Entry)
  | cleanedCmd (h : Hash)
deriving DecidableEq, Repr

/-- Issue one call through the persistent writer. -/
def applyOpW (w : PWriter) : LogOp → PWriter
  | .createdDir p => wCreatedDirectory w p
  | .ranCmd h e => wRanCommand w h e
  | .cleanedCmd h => wCleanedCommand w h

/-- Issue one call to the in-memory log. -/
def applyOpM (m : InMemoryInvocationLog) : LogOp → InMemoryInvocationLog
  | .createdDir p => imCreatedDirectory m p
  | .ranCmd h e => imRanCommand m h e
  | .cleanedCmd h => imCleanedCommand m h

/-- Issue a call sequence through the persistent writer. -/
def runOpsW (w : PWriter) (ops : List LogOp) : PWriter := ops.foldl applyOpW w

/-- Issue a call sequence to the in-memory log. -/
def runOpsM (m : InMemoryInvocationLog) (ops : List LogOp) : InMemoryInvocationLog :=
  ops.foldl applyOpM m

/-- A freshly opened persistent writer over an empty log. -/
def freshWriter : PWriter := ⟨[], [], 0⟩

/-- A path the log can store: non-NUL bytes and a bounded length. -/
def ValidPath (p : PathB) : Prop :=
  (∀ b ∈ p, 0 < b ∧ b < 256) ∧ p.length < 2 ^ 24

/-- An entry the log can store: valid paths, in-range fingerprints and a
bounded pair count. -/
def ValidEntry (e : Entry) : Prop :=
  (∀ pr ∈ e.output_files ++ e.input_files, ValidPath pr.1 ∧ pr.2.InRange) ∧
  e.output_files.length + e.input_files.length < 2 ^ 20

/-- A call the log can store. -/
def ValidOp : LogOp → Prop
  | .createdDir p => ValidPath p
  | .ranCmd h e => h < 2 ^ 160 ∧ ValidEntry e
  | .cleanedCmd h => h < 2 ^ 160

/-- Upper bound on the number of records one call appends. -/
def opGrowth : LogOp → Nat
  | .createdDir _ => 2
  | .ranCmd _ e => 1 + e.output_files.length + e.input_files.length
  | .cleanedCmd _ => 1

/-- A call sequence the log can store: each call valid, and few enough
records in total that record ids fit in a `u32`. -/
def ValidOps (ops : List LogOp) : Prop :=
  (∀ op ∈ ops, ValidOp op) ∧ (ops.map opGrowth).sum < 2 ^ 32

instance (p : PathB) : Decidable (ValidPath p) := by
  unfold ValidPath; infer_instance

instance (e : Entry) : Decidable (ValidEntry e) := by
  unfold ValidEntry; infer_instance

instance : (op : LogOp) → Decidable (ValidOp op)
  | .createdDir p => by unfold ValidOp; infer_instance
  | .ranCmd h e => by unfold ValidOp; infer_instance
  | .cleanedCmd h => by unfold ValidOp; infer_instance

instance (ops : List LogOp) : Decidable (ValidOps ops) := by
  unfold ValidOps; infer_instance

theorem takeWhile_append_zero (p : PathB) (rest : List Nat) (hp : ∀ b ∈ p, 0 < b) :
    (p ++ 0 :: rest).takeWhile (fun b => b != 0) = p := by
  induction p with
  | nil => simp [List.takeWhile_cons]
  | cons b bs ih =>
    have hb : (b != 0) = true := by
      have := hp b (List.mem_cons_self _ _)
      simpa using this.ne'
    simp only [List.cons_append, List.takeWhile_cons, hb, if_true]
    rw [ih (fun x hx => hp x (List.mem_cons_of_mem _ hx))]

theorem padNul_length (p : PathB) :
    (padNul p).length = p.length + (4 - p.length % 4) := by
  simp [padNul]

theorem padNul_mod (p : PathB) : (padNul p).length % 4 = 0 := by
  rw [padNul_length]
  omega

theorem padNul_eq (p : PathB) :
    padNul p = p ++ 0 :: List.replicate (4 - p.length % 4 - 1) 0 := by
  unfold padNul
  congr 1
  obtain ⟨n, hn⟩ : ∃ n, 4 - p.length % 4 = n + 1 := ⟨3 - p.length % 4, by omega⟩
  rw [hn, List.replicate_succ]
  simp

theorem takeWhile_padNul (p : PathB) (hp : ∀ b ∈ p, 0 < b) :
    (padNul p).takeWhile (fun b => b != 0) = p := by
  rw [padNul_eq]
  exact takeWhile_append_zero p _ hp

theorem getElem?_some_lt {α : Type} {l : List α} {i : Nat} {r : α}
    (h : l[i]? = some r) : i < l.length := by
  by_contra hnot
  rw [List.getElem?_eq_none (by omega)] at h
  exact Option.noConfusion h

/-- The invariant tying an open persistent writer to the parser state
its file parses to: the file parses cleanly to exactly that state, the
record count matches, and every cached path id resolves to the Path
record holding that path. -/
structure WInv (w : PWriter) (ps : PState) : Prop where
  parse : parseRecords pInit w.recordBytes = (ps, w.recordBytes.length, false)
  nrec : ps.recs.length = w.nRecords
  ids : ∀ p i, alookup p w.pathIds = some i → ps.recs[i]? = some (.pathRec p)

theorem winv_appendRecord (w : PWriter) (ps ps' : PState) (kind : Nat)
    (payload : List Nat) (hw : WInv w ps) (hkind : kind < 4)
    (hpad : payload.length % 4 = 0) (hbound : payload.length * 4 + kind < 2 ^ 32)
    (happ : applyRecord ps kind payload = some ps') :
    parseRecords pInit (w.recordBytes ++ mkRecord kind payload) =
      (ps', (w.recordBytes ++ mkRecord kind payload).length, false) := by
  have h1 := parseRecords_append pInit w.recordBytes (mkRecord kind payload)
    (by rw [hw.parse]) (by rw [hw.parse])
  rw [hw.parse] at h1
  dsimp only at h1
  rw [parseRecords_single ps ps' kind payload hkind hpad hbound happ] at h1
  rw [h1]
  simp [List.length_append, mkRecord_length]

theorem winv_ensurePath (w : PWriter) (ps : PState) (p : PathB)
    (hw : WInv w ps) (hp : ValidPath p) :
    ∃ ps', WInv (ensurePath w p) ps' ∧ ps'.dirs = ps.dirs ∧
      ps'.entries = ps.entries ∧
      (ensurePath w p).nRecords ≤ w.nRecords + 1 ∧
      (∃ i, alookup p (ensurePath w p).pathIds = some i) ∧
      (∀ q j, alookup q w.pathIds = some j →
        alookup q (ensurePath w p).pathIds = some j) := by
  cases hlk : alookup p w.pathIds with
  | some i =>
    refine ⟨ps, ?_, rfl, rfl, ?_, ⟨i, ?_⟩, ?_⟩
    · simpa [ensurePath, hlk] using hw
    · simp [ensurePath, hlk]
    · simp [ensurePath, hlk, hlk]
    · intro q j hq
      simpa [ensurePath, hlk] using hq
  | none =>
    have hplen : p.length < (padNul p).length := by
      rw [padNul_length]
      omega
    have happ : applyRecord ps 0 (padNul p) =
        some { ps with recs := ps.recs ++ [.pathRec p] } := by
      unfold applyRecord
      rw [takeWhile_padNul p (fun b hb => (hp.1 b hb).1)]
      simp [hplen]
    have hbound : (padNul p).length * 4 + 0 < 2 ^ 32 := by
      have := hp.2
      rw [padNul_length]
      norm_num at this ⊢
      omega
    have hparse := winv_appendRecord w ps _ 0 (padNul p) hw (by norm_num)
      (padNul_mod p) hbound happ
    refine ⟨{ ps with recs := ps.recs ++ [.pathRec p] }, ⟨?_, ?_, ?_⟩, rfl, rfl,
      ?_, ⟨w.nRecords, ?_⟩, ?_⟩
    · simpa [ensurePath, hlk, appendRecord] using hparse
    · simp [ensurePath, hlk, appendRecord, hw.nrec]
    · intro q j hq
      simp only [ensurePath, hlk, appendRecord] at hq
      by_cases hpq : p = q
      · subst hpq
        simp only [alookup, if_pos rfl] at hq
        have hj : j = w.nRecords := by
          exact (Option.some.injEq _ _).mp hq.symm
        subst hj
        rw [← hw.nrec]
        exact List.getElem?_concat_length _ _
      · simp only [alookup, if_neg hpq] at hq
        have hold := hw.ids q j hq
        rw [List.getElem?_append_left (getElem?_some_lt hold)]
        exact hold
    · simp [ensurePath, hlk, appendRecord]
    · simp [ensurePath, hlk, alookup]
    · intro q j hq
      simp only [ensurePath, hlk, alookup]
      have hpq : ¬p = q := by
        intro he
        subst he
        rw [hlk] at hq
        exact Option.noConfusion hq
      rw [if_neg hpq]
      exact hq

theorem winv_ensurePaths (w : PWriter) (ps : PState) (l : List PathB)
    (hw : WInv w ps) (hl : ∀ p ∈ l, ValidPath p) :
    ∃ ps', WInv (ensurePaths w l) ps' ∧ ps'.dirs = ps.dirs ∧
      ps'.entries = ps.entries ∧
      (ensurePaths w l).nRecords ≤ w.nRecords + l.length ∧
      (∀ p ∈ l, ∃ i, alookup p (ensurePaths w l).pathIds = some i) ∧
      (∀ q j, alookup q w.pathIds = some j →
        alookup q (ensurePaths w l).pathIds = some j) := by
  induction l generalizing w ps with
  | nil =>
    exact ⟨ps, hw, rfl, rfl, by simp [ensurePaths], by simp, fun q j hq => hq⟩
  | cons p rest ih =>
    obtain ⟨ps1, hw1, hd1, he1, hn1, ⟨i, hi⟩, hmono1⟩ :=
      winv_ensurePath w ps p hw (hl p (List.mem_cons_self _ _))
    obtain ⟨ps', hw', hd', he', hn', hall', hmono'⟩ :=
      ih (ensurePath w p) ps1 hw1 (fun q hq => hl q (List.mem_cons_of_mem _ hq))
    refine ⟨ps', hw', by rw [hd', hd1], by rw [he', he1], ?_, ?_, ?_⟩
    · show (ensurePaths (ensurePath w p) rest).nRecords ≤ w.nRecords + (rest.length + 1)
      omega
    · intro q hq
      rcases List.mem_cons.mp hq with hq | hq
      · subst hq
        exact ⟨i, hmono' q i hi⟩
      · exact hall' q hq
    · intro q j hq
      exact hmono' q j (hmono1 q j hq)

theorem pow256_4 : (256 : Nat) ^ 4 = 2 ^ 32 := by norm_num

theorem pow256_20 : (256 : Nat) ^ 20 = 2 ^ 160 := by norm_num

theorem resolvePairs_map (recs : List RecMeta) (pid : PathB → Nat)
    (l : List (PathB × Fingerprint))
    (h : ∀ pr ∈ l, recs[pid pr.1]? = some (.pathRec pr.1)) :
    resolvePairs recs (l.map (fun pr => (pid pr.1, pr.2))) = some l := by
  induction l with
  | nil => rfl
  | cons hd tl ih =>
    simp only [List.map_cons, resolvePairs]
    rw [h hd (List.mem_cons_self _ _), ih (fun pr hpr => h pr (List.mem_cons_of_mem _ hpr))]

theorem applyRecord_createdDir (st : PState) (i : Nat) (p : PathB)
    (hi32 : i < 2 ^ 32) (hrec : st.recs[i]? = some (.pathRec p)) :
    applyRecord st 1 (leBytes 4 i) =
      some { st with recs := st.recs ++ [.dirRec p], dirs := insertDir p st.dirs } := by
  unfold applyRecord
  rw [leDec_leBytes 4 i (by omega)]
  simp [leBytes_length, hrec]

theorem applyRecord_cleaned (st : PState) (h : Hash) (hh : h < 2 ^ 160) :
    applyRecord st 3 (leBytes 20 h) =
      some { st with
        recs := st.recs ++ [.otherRec],
        entries := eraseEntry h st.entries } := by
  unfold applyRecord
  rw [leDec_leBytes 20 h (by rw [pow256_20]; exact hh)]
  simp [leBytes_length]

theorem applyRecord_invocation (st : PState) (h : Hash) (oc : Nat)
    (pairs : List (Nat × Fingerprint)) (resolved : List (PathB × Fingerprint))
    (hh : h < 2 ^ 160) (hoc : oc < 2 ^ 32) (hocle : oc ≤ pairs.length)
    (hpairs : ∀ pr ∈ pairs, pr.1 < 2 ^ 32 ∧ pr.2.InRange)
    (hres : resolvePairs st.recs pairs = some resolved) :
    applyRecord st 2 (leBytes 20 h ++ (leBytes 4 oc ++ encPairs pairs)) =
      some { st with
        recs := st.recs ++ [.otherRec],
        entries := upsertEntry h ⟨resolved.take oc, resolved.drop oc⟩ st.entries } := by
  have hlen : (leBytes 20 h ++ (leBytes 4 oc ++ encPairs pairs)).length =
      24 + 72 * pairs.length := by
    simp [leBytes_length, encPairs_length]
    ring
  have hd20 : (leBytes 20 h ++ (leBytes 4 oc ++ encPairs pairs)).drop 20 =
      leBytes 4 oc ++ encPairs pairs := List.drop_left' (leBytes_length 20 _)
  have ht20 : (leBytes 20 h ++ (leBytes 4 oc ++ encPairs pairs)).take 20 =
      leBytes 20 h := List.take_left' (leBytes_length 20 _)
  have ht4 : (leBytes 4 oc ++ encPairs pairs).take 4 = leBytes 4 oc :=
    List.take_left' (leBytes_length 4 _)
  have hd24 : (leBytes 20 h ++ (leBytes 4 oc ++ encPairs pairs)).drop 24 =
      encPairs pairs := by
    rw [← List.append_assoc]
    exact List.drop_left' (by simp [leBytes_length])
  have hcnt : (24 + 72 * pairs.length - 24) / 72 = pairs.length := by omega
  have hdecp : decPairs pairs.length (encPairs pairs) = pairs := by
    have := decPairs_encPairs pairs [] hpairs
    simpa using this
  have hoc4 : oc < 256 ^ 4 := by rw [pow256_4]; exact hoc
  have hh20 : h < 256 ^ 20 := by rw [pow256_20]; exact hh
  have hlen' : (leBytes 20 h).length + ((leBytes 4 oc).length + (encPairs pairs).length) =
      24 + 72 * pairs.length := by
    simp [leBytes_length, encPairs_length]
    ring
  unfold applyRecord
  norm_num
  refine ⟨⟨by rw [hlen']; omega, by rw [hlen']; omega⟩, ?_, ?_⟩
  · rw [hd20, ht4, leDec_leBytes 4 oc hoc4, hlen', hcnt]
    exact hocle
  · rw [hlen', hcnt, hd24, hdecp, hres, hd20, ht4, leDec_leBytes 4 oc hoc4, ht20,
      leDec_leBytes 20 h hh20]

theorem ids_extend (w : PWriter) (ps : PState) (more : List RecMeta) (hw : WInv w ps) :
    ∀ p i, alookup p w.pathIds = some i →
      (ps.recs ++ more)[i]? = some (.pathRec p) := by
  intro p i hpi
  rw [List.getElem?_append_left (getElem?_some_lt (hw.ids p i hpi))]
  exact hw.ids p i hpi

theorem winv_createdDir (w : PWriter) (ps : PState) (p : PathB)
    (hw : WInv w ps) (hp : ValidPath p) (hb : w.nRecords + 2 ≤ 2 ^ 32) :
    ∃ ps', WInv (wCreatedDirectory w p) ps' ∧
      ps'.dirs = insertDir p ps.dirs ∧ ps'.entries = ps.entries ∧
      (wCreatedDirectory w p).nRecords ≤ w.nRecords + 2 := by
  obtain ⟨ps1, hw1, hd1, he1, hn1, ⟨i, hi⟩, hmono⟩ := winv_ensurePath w ps p hw hp
  have hpid : pidOf (ensurePath w p) p = i := by simp [pidOf, hi]
  have hilt : i < ps1.recs.length := getElem?_some_lt (hw1.ids p i hi)
  have hi32 : i < 2 ^ 32 := by
    have h2 := hw1.nrec
    omega
  have happ := applyRecord_createdDir ps1 i p hi32 (hw1.ids p i hi)
  have hparse := winv_appendRecord (ensurePath w p) ps1 _ 1 (leBytes 4 i) hw1
    (by norm_num) (by simp [leBytes_length]) (by simp [leBytes_length]) happ
  refine ⟨{ ps1 with
      recs := ps1.recs ++ [.dirRec p],
      dirs := insertDir p ps1.dirs }, ⟨?_, ?_, ?_⟩, ?_, ?_, ?_⟩
  · show parseRecords pInit (wCreatedDirectory w p).recordBytes = _
    unfold wCreatedDirectory
    rw [hpid]
    simpa [appendRecord] using hparse
  · simp [wCreatedDirectory, appendRecord, hw1.nrec]
  · intro q j hq
    simp only [wCreatedDirectory, appendRecord] at hq
    exact ids_extend _ ps1 _ hw1 q j hq
  · show insertDir p ps1.dirs = insertDir p ps.dirs
    rw [hd1]
  · exact he1
  · simp only [wCreatedDirectory, appendRecord]
    omega

theorem winv_cleanedCmd (w : PWriter) (ps : PState) (hsh : Hash)
    (hw : WInv w ps) (hh : hsh < 2 ^ 160) :
    ∃ ps', WInv (wCleanedCommand w hsh) ps' ∧ ps'.dirs = ps.dirs ∧
      ps'.entries = eraseEntry hsh ps.entries ∧
      (wCleanedCommand w hsh).nRecords ≤ w.nRecords + 1 := by
  have happ := applyRecord_cleaned ps hsh hh
  have hparse := winv_appendRecord w ps _ 3 (leBytes 20 hsh) hw
    (by norm_num) (by simp [leBytes_length]) (by simp [leBytes_length]) happ
  refine ⟨{ ps with
      recs := ps.recs ++ [.otherRec],
      entries := eraseEntry hsh ps.entries }, ⟨?_, ?_, ?_⟩, rfl, rfl, ?_⟩
  · show parseRecords pInit (wCleanedCommand w hsh).recordBytes = _
    unfold wCleanedCommand
    simpa [appendRecord] using hparse
  · simp [wCleanedCommand, appendRecord, hw.nrec]
  · intro q j hq
    simp only [wCleanedCommand, appendRecord] at hq
    exact ids_extend _ ps _ hw q j hq
  · simp [wCleanedCommand, appendRecord]

theorem winv_ranCmd (w : PWriter) (ps : PState) (hsh : Hash) (e : Entry)
    (hw : WInv w ps) (hh : hsh < 2 ^ 160) (hve : ValidEntry e)
    (hb : w.nRecords + (1 + e.output_files.length + e.input_files.length) ≤ 2 ^ 32) :
    ∃ ps', WInv (wRanCommand w hsh e) ps' ∧ ps'.dirs = ps.dirs ∧
      ps'.entries = upsertEntry hsh e ps.entries ∧
      (wRanCommand w hsh e).nRecords ≤
        w.nRecords + (1 + e.output_files.length + e.input_files.length) := by
  have hlv : ∀ p ∈ entryPathList e, ValidPath p := by
    intro p hp
    unfold entryPathList at hp
    obtain ⟨pr, hpr, rfl⟩ := List.mem_map.mp hp
    exact (hve.1 pr hpr).1
  obtain ⟨ps1, hw1, hd1, he1, hn1, hall, hmono⟩ :=
    winv_ensurePaths w ps (entryPathList e) hw hlv
  set w1 := ensurePaths w (entryPathList e) with hw1def
  have hllen : (entryPathList e).length =
      e.output_files.length + e.input_files.length := by
    simp [entryPathList]
  have hres0 : ∀ pr ∈ e.output_files ++ e.input_files,
      ps1.recs[pidOf w1 pr.1]? = some (.pathRec pr.1) := by
    intro pr hpr
    obtain ⟨i, hi⟩ := hall pr.1 (by
      unfold entryPathList
      exact List.mem_map.mpr ⟨pr, hpr, rfl⟩)
    have hpid : pidOf w1 pr.1 = i := by simp [pidOf, hi]
    rw [hpid]
    exact hw1.ids pr.1 i hi
  have hres := resolvePairs_map ps1.recs (pidOf w1)
    (e.output_files ++ e.input_files) hres0
  have hpid32 : ∀ pr ∈ (e.output_files ++ e.input_files).map
      (fun pr => (pidOf w1 pr.1, pr.2)), pr.1 < 2 ^ 32 ∧ pr.2.InRange := by
    intro pr hpr
    obtain ⟨pr0, hpr0, rfl⟩ := List.mem_map.mp hpr
    refine ⟨?_, (hve.1 pr0 hpr0).2⟩
    have hlt : pidOf w1 pr0.1 < ps1.recs.length := getElem?_some_lt (hres0 pr0 hpr0)
    have h2 := hw1.nrec
    omega
  have hocle : e.output_files.length ≤
      ((e.output_files ++ e.input_files).map
        (fun pr => (pidOf w1 pr.1, pr.2))).length := by
    simp
  have hoc32 : e.output_files.length < 2 ^ 32 := by
    have := hve.2
    norm_num at this ⊢
    omega
  have happ := applyRecord_invocation ps1 hsh e.output_files.length
    ((e.output_files ++ e.input_files).map (fun pr => (pidOf w1 pr.1, pr.2)))
    (e.output_files ++ e.input_files) hh hoc32 hocle hpid32 hres
  have htko : (e.output_files ++ e.input_files).take e.output_files.length =
      e.output_files := List.take_left' rfl
  have hdro : (e.output_files ++ e.input_files).drop e.output_files.length =
      e.input_files := List.drop_left' rfl
  rw [htko, hdro] at happ
  have hplen : (leBytes 20 hsh ++ (leBytes 4 e.output_files.length ++
      encPairs ((e.output_files ++ e.input_files).map
        (fun pr => (pidOf w1 pr.1, pr.2))))).length =
      24 + 72 * (e.output_files.length + e.input_files.length) := by
    simp [leBytes_length, encPairs_length]
    ring
  have hparse := winv_appendRecord w1 ps1 _ 2 _ hw1 (by norm_num)
    (by rw [hplen]; omega)
    (by
      rw [hplen]
      have := hve.2
      norm_num at this ⊢
      omega) happ
  refine ⟨{ ps1 with
      recs := ps1.recs ++ [.otherRec],
      entries := upsertEntry hsh ⟨e.output_files, e.input_files⟩ ps1.entries },
    ⟨?_, ?_, ?_⟩, ?_, ?_, ?_⟩
  · show parseRecords pInit (wRanCommand w hsh e).recordBytes = _
    unfold wRanCommand
    rw [← hw1def]
    simpa [appendRecord] using hparse
  · simp [wRanCommand, appendRecord, ← hw1def, hw1.nrec]
  · intro q j hq
    simp only [wRanCommand, appendRecord, ← hw1def] at hq
    exact ids_extend w1 ps1 _ hw1 q j hq
  · exact hd1
  · show upsertEntry hsh ⟨e.output_files, e.input_files⟩ ps1.entries =
      upsertEntry hsh e ps.entries
    rw [he1]
  · simp only [wRanCommand, appendRecord, ← hw1def]
    omega

theorem winv_runOps (ops : List LogOp) (w : PWriter) (ps : PState)
    (m : InMemoryInvocationLog) (hw : WInv w ps)
    (hd : ps.dirs = m.created_directories) (he : ps.entries = m.entries)
    (hv : ∀ op ∈ ops, ValidOp op)
    (hb : w.nRecords + (ops.map opGrowth).sum ≤ 2 ^ 32) :
    ∃ ps', WInv (runOpsW w ops) ps' ∧
      ps'.dirs = (runOpsM m ops).created_directories ∧
      ps'.entries = (runOpsM m ops).entries := by
  induction ops generalizing w ps m with
  | nil => exact ⟨ps, hw, hd, he⟩
  | cons op rest ih =>
    have hbs : w.nRecords + opGrowth op + (rest.map opGrowth).sum ≤ 2 ^ 32 := by
      simp only [List.map_cons, List.sum_cons] at hb
      omega
    have hsteps : runOpsW w (op :: rest) = runOpsW (applyOpW w op) rest := rfl
    have hstepm : runOpsM m (op :: rest) = runOpsM (applyOpM m op) rest := rfl
    rw [hsteps, hstepm]
    cases op with
    | createdDir p =>
      obtain ⟨ps1, hw1, hd1, he1, hn1⟩ := winv_createdDir w ps p hw
        (hv _ (List.mem_cons_self _ _)) (by simp [opGrowth] at hbs; omega)
      exact ih (wCreatedDirectory w p) ps1 (imCreatedDirectory m p) hw1
        (by rw [hd1, hd]; rfl) (by rw [he1, he]; rfl)
        (fun o ho => hv o (List.mem_cons_of_mem _ ho))
        (by simp [opGrowth] at hbs; omega)
    | ranCmd hsh e =>
      obtain ⟨ps1, hw1, hd1, he1, hn1⟩ := winv_ranCmd w ps hsh e hw
        (hv _ (List.mem_cons_self _ _)).1 (hv _ (List.mem_cons_self _ _)).2
        (by simp [opGrowth] at hbs; omega)
      exact ih (wRanCommand w hsh e) ps1 (imRanCommand m hsh e) hw1
        (by rw [hd1, hd]; rfl) (by rw [he1, he]; rfl)
        (fun o ho => hv o (List.mem_cons_of_mem _ ho))
        (by simp [opGrowth] at hbs hn1 ⊢; omega)
    | cleanedCmd hsh =>
      obtain ⟨ps1, hw1, hd1, he1, hn1⟩ := winv_cleanedCmd w ps hsh hw
        (hv _ (List.mem_cons_self _ _))
      exact ih (wCleanedCommand w hsh) ps1 (imCleanedCommand m hsh) hw1
        (by rw [hd1, hd]; rfl) (by rw [he1, he]; rfl)
        (fun o ho => hv o (List.mem_cons_of_mem _ ho))
        (by simp [opGrowth] at hbs; omega)

/-- The magic prefix of the invocation log file. -/
def logMagic : List Nat := [105, 110, 118, 111]

/-- Modelled from the spec: the log file header — the magic prefix
followed by the `u32` schema version (1). -/
def logHeader : List Nat := logMagic ++ leBytes 4 1

theorem logHeader_length : logHeader.length = 8 := by
  simp [logHeader, logMagic, leBytes_length]

/-- The warning message the parser emits when it truncates the file. -/
def truncationWarning : String := "invalid entry in invocation log: truncating"

/-- The interesting fields of `InvocationLogParseResult`: the parsed
logical state, the warning (empty when none), and the length the file is
truncated to.  (`needs_recompaction`, `path_ids` and `entry_count` of
the source structure are bookkeeping not needed by the claims.) -/
structure ParseResult where
  invocations : Invocations
  warning : String
  keptBytes : Nat
deriving DecidableEq, Repr

/-- Modelled from the spec: parse a log file image.  A header mismatch
makes the reader treat the file as empty; otherwise the records are
streamed, and on the first invalid record the file is truncated to the
well-formed prefix and a warning is emitted. -/
def parseLogBytes (bytes : List Nat) : ParseResult :=
  if bytes.take 8 = logHeader then
    ⟨⟨(parseRecords pInit (bytes.drop 8)).1.entries,
      (parseRecords pInit (bytes.drop 8)).1.dirs⟩,
     if (parseRecords pInit (bytes.drop 8)).2.2 then truncationWarning else "",
     8 + (parseRecords pInit (bytes.drop 8)).2.1⟩
  else ⟨⟨[], []⟩, "", 0⟩

/-- Outcome of reading the log file from disk. -/
inductive ReadResult where
  | ok (bytes : List Nat)
  | notFound
  | readError
deriving DecidableEq, Repr

/-- Modelled from the spec: `parsePersistentInvocationLog` over the
outcome of reading the log file: a missing file is not an error and
yields an empty `Invocations`; an I/O error reading the file is
propagated as `IoError`. -/
def parsePersistentInvocationLog : ReadResult → Except IoError ParseResult
  | .ok bytes => .ok (parseLogBytes bytes)
  | .notFound => .ok ⟨⟨[], []⟩, "", 0⟩
  | .readError => .error .ioError

theorem winv_fresh : WInv freshWriter pInit :=
  ⟨parseRecords_nil pInit, rfl, fun p i h => absurd h (by simp [alookup])⟩

/-- Claim C2: write-read fidelity of the persistent invocation log.  For
any sequence of `createdDirectory` / `ranCommand` / `cleanedCommand`
calls issued through a fresh persistent writer, parsing the resulting
file succeeds with no warning and yields exactly the logical state the
same calls produce on the in-memory log: the same entry map (with
`ranCommand` overwriting and `cleanedCommand` deleting) and the same
live created-directory set. -/
theorem c2_log_write_read_fidelity (ops : List LogOp) (hv : ValidOps ops) :
    (parseLogBytes (logHeader ++ (runOpsW freshWriter ops).recordBytes)).warning = "" ∧
    (parseLogBytes (logHeader ++ (runOpsW freshWriter ops).recordBytes)).invocations.entries =
      (runOpsM imEmpty ops).entries ∧
    (parseLogBytes (logHeader ++ (runOpsW freshWriter ops).recordBytes)).invocations.created_directories =
      (runOpsM imEmpty ops).created_directories ∧
    (parseLogBytes (logHeader ++ (runOpsW freshWriter ops).recordBytes)).keptBytes =
      (logHeader ++ (runOpsW freshWriter ops).recordBytes).length := by
  obtain ⟨ps', hw', hd', he'⟩ := winv_runOps ops freshWriter pInit imEmpty
    winv_fresh rfl rfl hv.1 (by simpa [freshWriter] using le_of_lt hv.2)
  have htk : (logHeader ++ (runOpsW freshWriter ops).recordBytes).take 8 = logHeader :=
    List.take_left' logHeader_length
  have hdr : (logHeader ++ (runOpsW freshWriter ops).recordBytes).drop 8 =
      (runOpsW freshWriter ops).recordBytes :=
    List.drop_left' logHeader_length
  unfold parseLogBytes
  rw [if_pos htk, hdr, hw'.parse]
  dsimp only
  refine ⟨rfl, he', hd', ?_⟩
  simp [List.length_append, logHeader_length]

/-- A concrete call sequence exercising all three operations. -/
def opsSample : List LogOp :=
  [.createdDir [100, 105, 114],
   .ranCmd 5 ⟨[([111, 117, 116], ⟨⟨3, 7, 33188, 10, 10, true⟩, 20, 12345⟩)],
              [([105, 110], ⟨emptyFStat, 0, zeroHash⟩)]⟩,
   .createdDir [100, 105, 114],
   .cleanedCmd 99]

/-- Claim C2 witness: the fidelity theorem applied to a concrete call
sequence. -/
theorem c2_log_write_read_fidelity_witness :
    (parseLogBytes (logHeader ++ (runOpsW freshWriter opsSample).recordBytes)).invocations.entries =
      (runOpsM imEmpty opsSample).entries :=
  (c2_log_write_read_fidelity opsSample (by decide)).2.1

/-- Claim C3: truncation recovery.  Parsing never raises a hard error:
for every file image, the parser returns the state accumulated from a
well-formed prefix — re-parsing the file truncated to `keptBytes` yields
the same logical state with no warning — and a warning is emitted
exactly when part of a headed file had to be discarded (an invalid
length, an invalid record, or a dangling record-id reference, all of
which stop the scan at the start of the offending record). -/
theorem c3_parse_truncation_recovery (bytes : List Nat) :
    (∀ e, parsePersistentInvocationLog (.ok bytes) ≠ .error e) ∧
    (parseLogBytes bytes).keptBytes ≤ bytes.length ∧
    parseLogBytes (bytes.take (parseLogBytes bytes).keptBytes) =
      ⟨(parseLogBytes bytes).invocations, "", (parseLogBytes bytes).keptBytes⟩ ∧
    ((parseLogBytes bytes).warning ≠ "" ↔
      bytes.take 8 = logHeader ∧ (parseLogBytes bytes).keptBytes < bytes.length) := by
  refine ⟨fun e h => by simp [parsePersistentInvocationLog] at h, ?_⟩
  by_cases hhd : bytes.take 8 = logHeader
  · have hlen8 : 8 ≤ bytes.length := by
      have h1 : (bytes.take 8).length = logHeader.length := by rw [hhd]
      rw [logHeader_length] at h1
      simp only [List.length_take] at h1
      omega
    have hcons := parseRecords_consumed pInit (bytes.drop 8)
    simp only [List.length_drop] at hcons
    unfold parseLogBytes
    rw [if_pos hhd]
    dsimp only
    refine ⟨by omega, ?_, ?_⟩
    · have htk8 : (bytes.take (8 + (parseRecords pInit (bytes.drop 8)).2.1)).take 8 =
          bytes.take 8 := by
        rw [List.take_take]
        congr 1
        omega
      rw [if_pos (by rw [htk8]; exact hhd)]
      have hdt : (bytes.take (8 + (parseRecords pInit (bytes.drop 8)).2.1)).drop 8 =
          (bytes.drop 8).take (parseRecords pInit (bytes.drop 8)).2.1 := by
        rw [List.drop_take]
        congr 1
        omega
      rw [hdt, parseRecords_take_prefix pInit (bytes.drop 8)]
      dsimp only
      rw [if_neg (by simp)]
    · cases ht : (parseRecords pInit (bytes.drop 8)).2.2 with
      | true =>
        have hlt : (parseRecords pInit (bytes.drop 8)).2.1 < bytes.length - 8 := by
          rcases Nat.lt_or_ge (parseRecords pInit (bytes.drop 8)).2.1 (bytes.length - 8)
            with hx | hx
          · exact hx
          · exact absurd (hcons.2.mpr (by omega)) (by rw [ht]; simp)
        constructor
        · intro _
          exact ⟨hhd, by omega⟩
        · intro _
          rw [if_pos rfl]
          decide
      | false =>
        have heq : (parseRecords pInit (bytes.drop 8)).2.1 = bytes.length - 8 :=
          hcons.2.mp ht
        rw [if_neg (by decide : ¬(false = true))]
        constructor
        · intro hfalse
          exact absurd rfl hfalse
        · intro hx
          omega
  · unfold parseLogBytes
    rw [if_neg hhd]
    dsimp only
    refine ⟨Nat.zero_le _, ?_, by simp [hhd]⟩
    rw [List.take_zero]
    rfl

/-- A log image with a valid header followed by three stray bytes. -/
def corruptSample : List Nat := logHeader ++ [7, 0, 0]

/-- Claim C3 witness: the truncation theorem applied to a concrete
corrupt log image (valid header, three stray trailing bytes). -/
theorem c3_parse_truncation_recovery_witness :
    parseLogBytes (corruptSample.take (parseLogBytes corruptSample).keptBytes) =
      ⟨(parseLogBytes corruptSample).invocations, "",
        (parseLogBytes corruptSample).keptBytes⟩ :=
  (c3_parse_truncation_recovery corruptSample).2.2.1

/-- Claim C10: a missing invocation log file is not an `IoError`:
`parsePersistentInvocationLog` succeeds and returns an empty
`Invocations` (no entries, no created directories) with an empty warning
string.  (A failing read, by contrast, does raise `IoError`.) -/
theorem c10_parse_missing_log_file :
    parsePersistentInvocationLog .notFound = .ok ⟨⟨[], []⟩, "", 0⟩ ∧
    (∀ e, parsePersistentInvocationLog .notFound ≠ .error e) ∧
    parsePersistentInvocationLog .readError = .error .ioError := by
  refine ⟨rfl, ?_, rfl⟩
  intro e h
  exact Except.noConfusion h

/-- Claim C10 witness: the missing-file theorem instantiated. -/
theorem c10_parse_missing_log_file_witness :
    parsePersistentInvocationLog .notFound = .ok ⟨⟨[], []⟩, "", 0⟩ :=
  c10_parse_missing_log_file.1

theorem eraseEntry_of_not_mem (h : Hash) (es : List (Hash × Entry))
    (hnm : ∀ pr ∈ es, pr.1 ≠ h) : eraseEntry h es = es := by
  unfold eraseEntry
  apply List.filter_eq_self.mpr
  intro pr hpr
  simpa using hnm pr hpr

theorem foldl_insertDir (ds : List PathB) :
    ∀ acc, ds.Nodup → (∀ d ∈ ds, d ∉ acc) →
    ds.foldl (fun a d => insertDir d a) acc = acc ++ ds := by
  induction ds with
  | nil =>
    intro acc _ _
    simp
  | cons d rest ih =>
    intro acc hnd hdj
    obtain ⟨hdnr, hndr⟩ := List.nodup_cons.mp hnd
    simp only [List.foldl_cons]
    rw [show insertDir d acc = acc ++ [d] from by
      unfold insertDir
      rw [if_neg (hdj d (List.mem_cons_self _ _))]]
    rw [ih (acc ++ [d]) hndr ?_]
    · simp
    · intro q hq hmem
      rcases List.mem_append.mp hmem with hqa | hqd
      · exact hdj q (List.mem_cons_of_mem _ hq) hqa
      · rw [List.mem_singleton] at hqd
        subst hqd
        exact hdnr hq

theorem foldl_upsert (es : List (Hash × Entry)) :
    ∀ acc, (es.map Prod.fst).Nodup → (∀ pr ∈ es, ∀ q ∈ acc, q.1 ≠ pr.1) →
    es.foldl (fun a pr => upsertEntry pr.1 pr.2 a) acc = acc ++ es := by
  induction es with
  | nil =>
    intro acc _ _
    simp
  | cons pr rest ih =>
    intro acc hnd hdj
    have hnd' : (pr.1 :: rest.map Prod.fst).Nodup := by simpa using hnd
    obtain ⟨hh, hrest⟩ := List.nodup_cons.mp hnd'
    simp only [List.foldl_cons]
    rw [show upsertEntry pr.1 pr.2 acc = acc ++ [pr] from by
      unfold upsertEntry
      rw [eraseEntry_of_not_mem pr.1 acc
        (fun q hq => hdj pr (List.mem_cons_self _ _) q hq)]]
    rw [ih (acc ++ [pr]) hrest ?_]
    · simp
    · intro q hq r hr
      rcases List.mem_append.mp hr with hra | hrd
      · exact hdj q (List.mem_cons_of_mem _ hq) r hra
      · rw [List.mem_singleton] at hrd
        subst hrd
        intro he
        apply hh
        rw [he]
        exact List.mem_map_of_mem _ hq

theorem runOpsM_createdDirs (ds : List PathB) (m : InMemoryInvocationLog) :
    runOpsM m (ds.map .createdDir) =
      ⟨m.entries, ds.foldl (fun a d => insertDir d a) m.created_directories⟩ := by
  induction ds generalizing m with
  | nil => rfl
  | cons d rest ih =>
    simp only [List.map_cons, List.foldl_cons]
    show runOpsM (imCreatedDirectory m d) (rest.map .createdDir) = _
    rw [ih (imCreatedDirectory m d)]
    rfl

theorem runOpsM_ranCmds (es : List (Hash × Entry)) (m : InMemoryInvocationLog) :
    runOpsM m (es.map (fun pr => .ranCmd pr.1 pr.2)) =
      ⟨es.foldl (fun a pr => upsertEntry pr.1 pr.2 a) m.entries,
       m.created_directories⟩ := by
  induction es generalizing m with
  | nil => rfl
  | cons pr rest ih =>
    simp only [List.map_cons, List.foldl_cons]
    show runOpsM (imRanCommand m pr.1 pr.2) (rest.map _) = _
    rw [ih (imRanCommand m pr.1 pr.2)]
    rfl

/-- The canonical call sequence that recompaction writes: one
`createdDirectory` per live directory, then one `ranCommand` per live
invocation. -/
def invOps (inv : Invocations) : List LogOp :=
  inv.created_directories.map .createdDir ++
    inv.entries.map (fun pr => .ranCmd pr.1 pr.2)

/-- The brand-new file recompaction writes: a version header, Path
records only for paths referenced by surviving records, one CreatedDir
per live directory, one Invocation per live entry. -/
def recompactContent (inv : Invocations) : List Nat :=
  logHeader ++ (runOpsW freshWriter (invOps inv)).recordBytes

/-- An `Invocations` value that recompaction can store: valid paths and
entries, set-like directory list, map-like entry keys, and few enough
records that ids fit in a `u32`. -/
def ValidInvocations (inv : Invocations) : Prop :=
  (∀ p ∈ inv.created_directories, ValidPath p) ∧
  (∀ pr ∈ inv.entries, pr.1 < 2 ^ 160 ∧ ValidEntry pr.2) ∧
  inv.created_directories.Nodup ∧
  (inv.entries.map Prod.fst).Nodup ∧
  ((invOps inv).map opGrowth).sum < 2 ^ 32

instance (inv : Invocations) : Decidable (ValidInvocations inv) := by
  unfold ValidInvocations; infer_instance

/-- Modelled from the spec: `recompactPersistentInvocationLog` acting on
a disk modelled as a map from paths to file contents.  The new content
is first written at a temporary path in the same directory, then renamed
over the log path; when the rename fails, the original log file keeps
its prior contents. -/
def recompactPersistentInvocationLog (disk : String → Option (List Nat))
    (inv : Invocations) (log_path tmp_path : String) (renameFails : Bool) :
    String → Option (List Nat) :=
  fun q =>
    if renameFails then
      if q = tmp_path then some (recompactContent inv) else disk q
    else
      if q = log_path then some (recompactContent inv)
      else if q = tmp_path then none
      else disk q

theorem runOpsM_invOps (inv : Invocations)
    (hnd : inv.created_directories.Nodup)
    (hke : (inv.entries.map Prod.fst).Nodup) :
    runOpsM imEmpty (invOps inv) = ⟨inv.entries, inv.created_directories⟩ := by
  unfold invOps
  rw [show runOpsM imEmpty (inv.created_directories.map .createdDir ++
      inv.entries.map (fun pr => .ranCmd pr.1 pr.2)) =
    runOpsM (runOpsM imEmpty (inv.created_directories.map .createdDir))
      (inv.entries.map (fun pr => .ranCmd pr.1 pr.2)) from by
    unfold runOpsM
    rw [List.foldl_append]]
  rw [runOpsM_createdDirs, runOpsM_ranCmds]
  dsimp only [imEmpty]
  rw [foldl_insertDir inv.created_directories [] hnd (by simp)]
  rw [foldl_upsert inv.entries [] hke (by simp)]
  simp

/-- Claim C8: recompaction writes a brand-new file holding exactly the
live state — parsing it back yields precisely the given entries and
created directories with no warning — and replaces the log file
atomically: on success the log path holds the new content, and when the
rename fails the log path still holds its prior contents. -/
theorem c8_recompaction (disk : String → Option (List Nat)) (inv : Invocations)
    (log_path tmp_path : String) (renameFails : Bool)
    (hne : tmp_path ≠ log_path) :
    (renameFails = true →
      recompactPersistentInvocationLog disk inv log_path tmp_path renameFails log_path =
        disk log_path) ∧
    (renameFails = false →
      recompactPersistentInvocationLog disk inv log_path tmp_path renameFails log_path =
        some (recompactContent inv)) ∧
    (ValidInvocations inv →
      (parseLogBytes (recompactContent inv)).warning = "" ∧
      (parseLogBytes (recompactContent inv)).invocations.entries = inv.entries ∧
      (parseLogBytes (recompactContent inv)).invocations.created_directories =
        inv.created_directories) := by
  refine ⟨?_, ?_, ?_⟩
  · intro hrf
    unfold recompactPersistentInvocationLog
    rw [hrf]
    simp only [if_true]
    rw [if_neg (fun hx => hne hx.symm)]
  · intro hrf
    unfold recompactPersistentInvocationLog
    rw [hrf]
    simp
  · intro hvi
    obtain ⟨hvp, hve, hnd, hke, hbound⟩ := hvi
    have hvops : ValidOps (invOps inv) := by
      refine ⟨?_, hbound⟩
      intro op hop
      unfold invOps at hop
      rcases List.mem_append.mp hop with hd | he
      · obtain ⟨p, hp, rfl⟩ := List.mem_map.mp hd
        exact hvp p hp
      · obtain ⟨pr, hpr, rfl⟩ := List.mem_map.mp he
        exact hve pr hpr
    have hfid := c2_log_write_read_fidelity (invOps inv) hvops
    have hm := runOpsM_invOps inv hnd hke
    unfold recompactContent
    refine ⟨hfid.1, ?_, ?_⟩
    · rw [hfid.2.1, hm]
    · rw [hfid.2.2.1, hm]

/-- A small non-empty `Invocations` value. -/
def invSample : Invocations := ⟨[(5, ⟨[], []⟩)], [[100, 105]]⟩

/-- Claim C8 witness: the recompaction theorem applied to a concrete
disk, log path and state. -/
theorem c8_recompaction_witness :
    recompactPersistentInvocationLog (fun _ => none) invSample "log" "tmp" false "log" =
      some (recompactContent invSample) ∧
    (parseLogBytes (recompactContent invSample)).invocations.entries =
      invSample.entries :=
  ⟨(c8_recompaction (fun _ => none) invSample "log" "tmp" false (by decide)).2.1 rfl,
   ((c8_recompaction (fun _ => none) invSample "log" "tmp" false (by decide)).2.2
     (by decide)).2.1⟩

/-!
The pooled command runner (`cmd/pooled_command_runner.h`, exercised by
the unit tests in the repository).  Commands are identified by their
submission index; the wrapped (inner) runner is modelled by the
`innerPending` list of commands that have been delivered to it and have
not yet completed.  Completion of any in-flight command is an explicit
event, so every interleaving the real runner can exhibit is a reachable
state here.
-/

/-- Lookup of a declared pool depth. -/
def plookup (name : String) : List (String × Nat) → Option Nat
  | [] => none
  | (q, d) :: rest => if q = name then some d else plookup name rest

/-- Modelled from the spec: the depth the pooled runner enforces for a
pool name — `console` is always 1 regardless of declarations, the empty
name and undeclared or depth-0 pools are unlimited (encoded as 0). -/
def effDepth (pools : List (String × Nat)) (name : String) : Nat :=
  if name = "console" then 1
  else if name = "" then 0
  else (plookup name pools).getD 0

/-- Modelled from the spec: the observable state of the pooled command
runner — declared pools, the number of commands submitted so far (ids
are submission indices), the commands delivered to the wrapped runner
and not yet completed, the per-pool FIFO backlog (kept as one
submission-ordered list; a pool's queue is its filtration), the log of
deliveries to the wrapped runner in delivery order, and the completion
callbacks invoked so far in invocation order. -/
structure PoolSt where
  pools : List (String × Nat)
  nextId : Nat
  submitted : List (Nat × String)
  innerPending : List (Nat × String)
  queuedQ : List (Nat × String)
  deliveredLog : List (Nat × String)
  done : List Nat
deriving DecidableEq, Repr

/-- The pooled runner before any command is submitted. -/
def initPool (pools : List (String × Nat)) : PoolSt :=
  ⟨pools, 0, [], [], [], [], []⟩

/-- The number of in-flight commands of one pool. -/
def countPool (l : List (Nat × String)) (name : String) : Nat :=
  (l.filter (fun c => c.2 == name)).length

/-- Remove the oldest queued command of a pool, if any. -/
def popPool (name : String) : List (Nat × String) →
    Option ((Nat × String) × List (Nat × String))
  | [] => none
  | c :: rest =>
    if c.2 = name then some (c, rest)
    else
      match popPool name rest with
      | some (q, rest') => some (q, c :: rest')
      | none => none

/-- The events the pooled runner reacts to: a command submission to a
named pool, and the completion (inside `runCommands`) of the in-flight
command at a given position. -/
inductive PEvent where
  | invoke (pool : String)
  | complete (i : Nat)
deriving DecidableEq, Repr

/-- Modelled from the spec: one step of the pooled command runner.  An
`invoke` delivers the command to the wrapped runner when its pool is
unlimited or below depth, and queues it otherwise; a `complete` fires
the command's callback, frees its pool slot and, if that pool has a
backlog, delivers the oldest queued command to the wrapped runner. -/
def pstep (st : PoolSt) : PEvent → PoolSt
  | .invoke pool =>
    if effDepth st.pools pool = 0 ∨
        countPool st.innerPending pool < effDepth st.pools pool then
      { st with
        nextId := st.nextId + 1,
        submitted := st.submitted ++ [(st.nextId, pool)],
        innerPending := st.innerPending ++ [(st.nextId, pool)],
        deliveredLog := st.deliveredLog ++ [(st.nextId, pool)] }
    else
      { st with
        nextId := st.nextId + 1,
        submitted := st.submitted ++ [(st.nextId, pool)],
        queuedQ := st.queuedQ ++ [(st.nextId, pool)] }
  | .complete i =>
    match st.innerPending[i]? with
    | none => st
    | some c =>
      match popPool c.2 st.queuedQ with
      | none =>
        { st with
          innerPending := st.innerPending.eraseIdx i,
          done := st.done ++ [c.1] }
      | some (q, rest) =>
        { st with
          innerPending := st.innerPending.eraseIdx i ++ [q],
          queuedQ := rest,
          done := st.done ++ [c.1],
          deliveredLog := st.deliveredLog ++ [q] }

/-- The pooled-runner state after a sequence of events. -/
def reach (pools : List (String × Nat)) (events : List PEvent) : PoolSt :=
  events.foldl pstep (initPool pools)

theorem countPool_append (l1 l2 : List (Nat × String)) (p : String) :
    countPool (l1 ++ l2) p = countPool l1 p + countPool l2 p := by
  simp [countPool, List.filter_append]

theorem countPool_singleton (c : Nat × String) (p : String) :
    countPool [c] p = if c.2 = p then 1 else 0 := by
  by_cases h : c.2 = p <;> simp [countPool, h]

theorem popPool_none_spec (name : String) (l : List (Nat × String))
    (h : popPool name l = none) : ∀ c ∈ l, c.2 ≠ name := by
  induction l with
  | nil =>
    intro c hc
    cases hc
  | cons d rest ih =>
    unfold popPool at h
    by_cases hd : d.2 = name
    · rw [if_pos hd] at h
      exact Option.noConfusion h
    · rw [if_neg hd] at h
      cases hpp : popPool name rest with
      | some x =>
        rw [hpp] at h
        simp at h
      | none =>
        intro c hc
        rcases List.mem_cons.mp hc with hcd | hc'
        · rw [hcd]
          exact hd
        · exact ih hpp c hc'

theorem popPool_some_spec (name : String) (l : List (Nat × String)) :
    ∀ q rest, popPool name l = some (q, rest) →
    q.2 = name ∧ ∃ l1 l2, l = l1 ++ q :: l2 ∧ rest = l1 ++ l2 ∧
      ∀ c ∈ l1, c.2 ≠ name := by
  induction l with
  | nil =>
    intro q rest h
    exact Option.noConfusion h
  | cons d tl ih =>
    intro q rest h
    unfold popPool at h
    by_cases hd : d.2 = name
    · rw [if_pos hd] at h
      rw [Option.some.injEq, Prod.mk.injEq] at h
      obtain ⟨hq, hrest⟩ := h
      subst hq
      subst hrest
      exact ⟨hd, [], tl, by simp, by simp, by simp⟩
    · rw [if_neg hd] at h
      cases hpp : popPool name tl with
      | none =>
        rw [hpp] at h
        simp at h
      | some x =>
        obtain ⟨q', rest'⟩ := x
        rw [hpp] at h
        simp only [Option.some.injEq, Prod.mk.injEq] at h
        obtain ⟨hq, hrest⟩ := h
        subst hq
        obtain ⟨hname, l1, l2, hl, hr, hl1⟩ := ih q' rest' hpp
        refine ⟨hname, d :: l1, l2, ?_, ?_, ?_⟩
        · rw [List.cons_append, ← hl]
        · rw [← hrest, List.cons_append, ← hr]
        · intro c hc
          rcases List.mem_cons.mp hc with hcd | hc'
          · rw [hcd]
            exact hd
          · exact hl1 c hc'

theorem pending_decomp {l : List (Nat × String)} {i : Nat} {c : Nat × String}
    (h : l[i]? = some c) :
    l = l.take i ++ c :: l.drop (i + 1) ∧
    l.eraseIdx i = l.take i ++ l.drop (i + 1) := by
  obtain ⟨hlt, hgt⟩ := List.getElem?_eq_some.mp h
  constructor
  · conv_lhs => rw [← List.take_append_drop i l]
    rw [List.drop_eq_getElem_cons hlt, hgt]
  · exact List.eraseIdx_eq_take_drop_succ l i

/-- The inductive invariant of the pooled command runner: pool limits
are respected, queues are only used while their pool is at capacity,
command ids are bounded, deliveries and queues are ordered by submission
id within each pool, every command id is accounted for exactly once
across callbacks, in-flight commands and queues, and every submitted
command has been delivered or is still queued. -/
structure PInv (st : PoolSt) : Prop where
  count_le : ∀ p, effDepth st.pools p ≠ 0 →
    countPool st.innerPending p ≤ effDepth st.pools p
  queued_full : ∀ c ∈ st.queuedQ, effDepth st.pools c.2 ≠ 0 ∧
    countPool st.innerPending c.2 = effDepth st.pools c.2
  ids_pending : ∀ c ∈ st.innerPending, c.1 < st.nextId
  ids_queued : ∀ c ∈ st.queuedQ, c.1 < st.nextId
  ids_delivered : ∀ c ∈ st.deliveredLog, c.1 < st.nextId
  sorted_delivered :
    st.deliveredLog.Pairwise (fun a b => a.2 = b.2 → a.1 < b.1)
  sorted_queue : st.queuedQ.Pairwise (fun a b => a.1 < b.1)
  cross : ∀ a ∈ st.deliveredLog, ∀ b ∈ st.queuedQ, a.2 = b.2 → a.1 < b.1
  counts : ∀ id : Nat, st.done.count id +
    (st.innerPending.map Prod.fst).count id +
    (st.queuedQ.map Prod.fst).count id = if id < st.nextId then 1 else 0
  partition : ∀ c ∈ st.submitted, c ∈ st.deliveredLog ∨ c ∈ st.queuedQ

theorem pinv_init (pools : List (String × Nat)) : PInv (initPool pools) := by
  refine ⟨?_, ?_, ?_, ?_, ?_, ?_, ?_, ?_, ?_, ?_⟩ <;>
    simp [initPool, countPool]

theorem pinv_invoke (st : PoolSt) (pool : String) (h : PInv st) :
    PInv (pstep st (.invoke pool)) := by
  show PInv (if effDepth st.pools pool = 0 ∨
      countPool st.innerPending pool < effDepth st.pools pool then
    { st with
      nextId := st.nextId + 1,
      submitted := st.submitted ++ [(st.nextId, pool)],
      innerPending := st.innerPending ++ [(st.nextId, pool)],
      deliveredLog := st.deliveredLog ++ [(st.nextId, pool)] }
  else
    { st with
      nextId := st.nextId + 1,
      submitted := st.submitted ++ [(st.nextId, pool)],
      queuedQ := st.queuedQ ++ [(st.nextId, pool)] })
  by_cases hcond : effDepth st.pools pool = 0 ∨
      countPool st.innerPending pool < effDepth st.pools pool
  · rw [if_pos hcond]
    have hqp : ∀ b ∈ st.queuedQ, b.2 ≠ pool := by
      intro b hb hbp
      obtain ⟨hne, hfull⟩ := h.queued_full b hb
      rw [hbp] at hne hfull
      rcases hcond with h0 | hlt
      · exact hne h0
      · rw [hfull] at hlt
        exact lt_irrefl _ hlt
    refine ⟨?_, ?_, ?_, ?_, ?_, ?_, ?_, ?_, ?_, ?_⟩ <;> dsimp only
    · intro p hne
      show countPool (st.innerPending ++ [(st.nextId, pool)]) p ≤ effDepth st.pools p
      rw [countPool_append, countPool_singleton]
      by_cases hpp : pool = p
      · subst hpp
        rcases hcond with h0 | hlt
        · exact absurd h0 hne
        · simp
          omega
      · rw [if_neg hpp]
        have := h.count_le p hne
        omega
    · intro c hc
      obtain ⟨hne, hfull⟩ := h.queued_full c hc
      refine ⟨hne, ?_⟩
      show countPool (st.innerPending ++ [(st.nextId, pool)]) c.2 = _
      rw [countPool_append, countPool_singleton,
        if_neg (fun hx => hqp c hc hx.symm)]
      omega
    · intro c hc
      rcases List.mem_append.mp hc with hold | hnew
      · exact Nat.lt_succ_of_lt (h.ids_pending c hold)
      · rw [List.mem_singleton] at hnew
        rw [hnew]
        exact Nat.lt_succ_self _
    · intro c hc
      exact Nat.lt_succ_of_lt (h.ids_queued c hc)
    · intro c hc
      rcases List.mem_append.mp hc with hold | hnew
      · exact Nat.lt_succ_of_lt (h.ids_delivered c hold)
      · rw [List.mem_singleton] at hnew
        rw [hnew]
        exact Nat.lt_succ_self _
    · apply List.pairwise_append.mpr
      refine ⟨h.sorted_delivered, by simp, ?_⟩
      intro a ha b hb
      rw [List.mem_singleton] at hb
      intro _
      rw [hb]
      exact h.ids_delivered a ha
    · exact h.sorted_queue
    · intro a ha b hb heq
      rcases List.mem_append.mp ha with hold | hnew
      · exact h.cross a hold b hb heq
      · rw [List.mem_singleton] at hnew
        exact absurd (by rw [← heq, hnew]) (hqp b hb)
    · intro id
      show st.done.count id +
        ((st.innerPending ++ [(st.nextId, pool)]).map Prod.fst).count id +
        (st.queuedQ.map Prod.fst).count id = _
      rw [List.map_append, List.count_append]
      have hc := h.counts id
      by_cases hid : id = st.nextId
      · subst hid
        simp only [List.map_cons, List.map_nil, List.count_cons, List.count_nil]
        simp only [if_neg (lt_irrefl st.nextId)] at hc
        simp
        omega
      · have h1 : (([(st.nextId, pool)].map Prod.fst).count id) = 0 := by
          simp [List.count_cons, Ne.symm hid]
        rw [h1]
        have h2 : (if id < st.nextId + 1 then 1 else 0) =
            (if id < st.nextId then 1 else 0) := by
          by_cases hlt : id < st.nextId
          · rw [if_pos hlt, if_pos (by omega)]
          · rw [if_neg hlt, if_neg (by omega)]
        rw [h2]
        omega
    · intro c hc
      rcases List.mem_append.mp hc with hold | hnew
      · rcases h.partition c hold with hd | hq
        · exact Or.inl (List.mem_append_left _ hd)
        · exact Or.inr hq
      · exact Or.inl (List.mem_append_right _ hnew)
  · rw [if_neg hcond]
    have hcond' : effDepth st.pools pool ≠ 0 ∧
        effDepth st.pools pool ≤ countPool st.innerPending pool := by
      rcases not_or.mp hcond with ⟨h0, hlt⟩
      exact ⟨h0, le_of_not_lt hlt⟩
    refine ⟨?_, ?_, ?_, ?_, ?_, ?_, ?_, ?_, ?_, ?_⟩ <;> dsimp only
    · exact h.count_le
    · intro c hc
      rcases List.mem_append.mp hc with hold | hnew
      · exact h.queued_full c hold
      · rw [List.mem_singleton] at hnew
        rw [hnew]
        dsimp only
        refine ⟨hcond'.1, ?_⟩
        have := h.count_le pool hcond'.1
        omega
    · exact fun c hc => Nat.lt_succ_of_lt (h.ids_pending c hc)
    · intro c hc
      rcases List.mem_append.mp hc with hold | hnew
      · exact Nat.lt_succ_of_lt (h.ids_queued c hold)
      · rw [List.mem_singleton] at hnew
        rw [hnew]
        exact Nat.lt_succ_self _
    · exact fun c hc => Nat.lt_succ_of_lt (h.ids_delivered c hc)
    · exact h.sorted_delivered
    · apply List.pairwise_append.mpr
      refine ⟨h.sorted_queue, by simp, ?_⟩
      intro a ha b hb
      rw [List.mem_singleton] at hb
      rw [hb]
      exact h.ids_queued a ha
    · intro a ha b hb heq
      rcases List.mem_append.mp hb with hold | hnew
      · exact h.cross a ha b hold heq
      · rw [List.mem_singleton] at hnew
        rw [hnew]
        exact h.ids_delivered a ha
    · intro id
      show st.done.count id + (st.innerPending.map Prod.fst).count id +
        ((st.queuedQ ++ [(st.nextId, pool)]).map Prod.fst).count id = _
      rw [List.map_append, List.count_append]
      have hc := h.counts id
      by_cases hid : id = st.nextId
      · subst hid
        simp only [List.map_cons, List.map_nil, List.count_cons, List.count_nil]
        simp only [if_neg (lt_irrefl st.nextId)] at hc
        simp
        omega
      · have h1 : (([(st.nextId, pool)].map Prod.fst).count id) = 0 := by
          simp [List.count_cons, Ne.symm hid]
        rw [h1]
        have h2 : (if id < st.nextId + 1 then 1 else 0) =
            (if id < st.nextId then 1 else 0) := by
          by_cases hlt : id < st.nextId
          · rw [if_pos hlt, if_pos (by omega)]
          · rw [if_neg hlt, if_neg (by omega)]
        rw [h2]
        omega
    · intro c hc
      rcases List.mem_append.mp hc with hold | hnew
      · rcases h.partition c hold with hd | hq
        · exact Or.inl hd
        · exact Or.inr (List.mem_append_left _ hq)
      · exact Or.inr (List.mem_append_right _ hnew)

theorem pinv_complete (st : PoolSt) (i : Nat) (h : PInv st) :
    PInv (pstep st (.complete i)) := by
  cases hg : st.innerPending[i]? with
  | none =>
    have heq : pstep st (.complete i) = st := by simp [pstep, hg]
    rw [heq]
    exact h
  | some c =>
    obtain ⟨hdec, hera⟩ := pending_decomp hg
    have hmemc : c ∈ st.innerPending := by
      rw [hdec]
      exact List.mem_append_right _ (List.mem_cons_self _ _)
    have hsubP : ∀ x ∈ st.innerPending.eraseIdx i, x ∈ st.innerPending := by
      intro x hx
      rw [hera] at hx
      rw [hdec]
      rcases List.mem_append.mp hx with h1 | h2
      · exact List.mem_append_left _ h1
      · exact List.mem_append_right _ (List.mem_cons_of_mem _ h2)
    have hcount : ∀ p, countPool st.innerPending p =
        countPool (st.innerPending.eraseIdx i) p + (if c.2 = p then 1 else 0) := by
      intro p
      conv_lhs => rw [hdec]
      rw [hera, countPool_append, countPool_append,
        show (c :: st.innerPending.drop (i + 1)) =
          [c] ++ st.innerPending.drop (i + 1) from rfl,
        countPool_append, countPool_singleton]
      omega
    have hcntm : ∀ id : Nat, (st.innerPending.map Prod.fst).count id =
        ((st.innerPending.eraseIdx i).map Prod.fst).count id +
          (if c.1 = id then 1 else 0) := by
      intro id
      conv_lhs => rw [hdec]
      rw [hera]
      simp only [List.map_append, List.map_cons, List.count_append, List.count_cons]
      by_cases hcd : c.1 = id
      · simp [hcd]
        omega
      · simp [hcd]
    cases hp : popPool c.2 st.queuedQ with
    | none =>
      have hnq := popPool_none_spec c.2 st.queuedQ hp
      have heq : pstep st (.complete i) = { st with
          innerPending := st.innerPending.eraseIdx i,
          done := st.done ++ [c.1] } := by
        simp [pstep, hg, hp]
      rw [heq]
      refine ⟨?_, ?_, ?_, ?_, ?_, ?_, ?_, ?_, ?_, ?_⟩ <;> dsimp only
      · intro p hne
        have h1 := h.count_le p hne
        have h2 := hcount p
        omega
      · intro b hb
        obtain ⟨hne, hfull⟩ := h.queued_full b hb
        refine ⟨hne, ?_⟩
        have h1 := hcount b.2
        rw [if_neg (fun hx => hnq b hb hx.symm)] at h1
        omega
      · exact fun x hx => h.ids_pending x (hsubP x hx)
      · exact h.ids_queued
      · exact h.ids_delivered
      · exact h.sorted_delivered
      · exact h.sorted_queue
      · exact h.cross
      · intro id
        have hc := h.counts id
        have h1 := hcntm id
        rw [List.count_append]
        by_cases hcd : c.1 = id
        · rw [if_pos hcd] at h1
          rw [List.count_singleton', if_pos hcd]
          omega
        · rw [if_neg hcd] at h1
          rw [List.count_singleton', if_neg hcd]
          omega
      · exact h.partition
    | some x =>
      obtain ⟨q, rest⟩ := x
      obtain ⟨hqpool, l1, l2, hql, hqr, hl1⟩ := popPool_some_spec c.2 st.queuedQ q rest hp
      have hqmem : q ∈ st.queuedQ := by
        rw [hql]
        exact List.mem_append_right _ (List.mem_cons_self _ _)
      have hsubQ : ∀ x ∈ rest, x ∈ st.queuedQ := by
        intro x hx
        rw [hqr] at hx
        rw [hql]
        rcases List.mem_append.mp hx with h1 | h2
        · exact List.mem_append_left _ h1
        · exact List.mem_append_right _ (List.mem_cons_of_mem _ h2)
      have hqcount : ∀ p, countPool st.queuedQ p =
          countPool rest p + (if q.2 = p then 1 else 0) := by
        intro p
        rw [hql, hqr, countPool_append, countPool_append,
          show (q :: l2) = [q] ++ l2 from rfl, countPool_append, countPool_singleton]
        omega
      have hqcntm : ∀ id : Nat, (st.queuedQ.map Prod.fst).count id =
          (rest.map Prod.fst).count id + (if q.1 = id then 1 else 0) := by
        intro id
        rw [hql, hqr]
        simp only [List.map_append, List.map_cons, List.count_append, List.count_cons]
        by_cases hcd : q.1 = id
        · simp [hcd]
          omega
        · simp [hcd]
      have hq2l2 : ∀ b ∈ l2, q.1 < b.1 := by
        have hpw : (l1 ++ q :: l2).Pairwise (fun a b => a.1 < b.1) := by
          rw [← hql]
          exact h.sorted_queue
        exact (List.pairwise_cons.mp (List.pairwise_append.mp hpw).2.1).1
      have heq : pstep st (.complete i) = { st with
          innerPending := st.innerPending.eraseIdx i ++ [q],
          queuedQ := rest,
          done := st.done ++ [c.1],
          deliveredLog := st.deliveredLog ++ [q] } := by
        simp [pstep, hg, hp]
      rw [heq]
      refine ⟨?_, ?_, ?_, ?_, ?_, ?_, ?_, ?_, ?_, ?_⟩ <;> dsimp only
      · intro p hne
        rw [countPool_append, countPool_singleton]
        have h1 := hcount p
        have h2 := h.count_le p hne
        by_cases hqp : q.2 = p
        · rw [if_pos hqp]
          have h3 : c.2 = p := by
            rw [← hqpool]
            exact hqp
          rw [if_pos h3] at h1
          omega
        · rw [if_neg hqp]
          by_cases hcp : c.2 = p
          · exact absurd (by rw [hqpool]; exact hcp) hqp
          · rw [if_neg hcp] at h1
            omega
      · intro b hb
        obtain ⟨hne, hfull⟩ := h.queued_full b (hsubQ b hb)
        refine ⟨hne, ?_⟩
        rw [countPool_append, countPool_singleton]
        have h1 := hcount b.2
        by_cases hbc : c.2 = b.2
        · rw [if_pos hbc] at h1
          have hqb : q.2 = b.2 := hqpool.trans hbc
          rw [if_pos hqb]
          omega
        · rw [if_neg hbc] at h1
          have hqb : ¬(q.2 = b.2) := fun hx => hbc (hqpool.symm.trans hx)
          rw [if_neg hqb]
          omega
      · intro x hx
        rcases List.mem_append.mp hx with h1 | h2
        · exact h.ids_pending x (hsubP x h1)
        · rw [List.mem_singleton] at h2
          rw [h2]
          exact h.ids_queued q hqmem
      · exact fun x hx => h.ids_queued x (hsubQ x hx)
      · intro x hx
        rcases List.mem_append.mp hx with h1 | h2
        · exact h.ids_delivered x h1
        · rw [List.mem_singleton] at h2
          rw [h2]
          exact h.ids_queued q hqmem
      · apply List.pairwise_append.mpr
        refine ⟨h.sorted_delivered, by simp, ?_⟩
        intro a ha b hb
        rw [List.mem_singleton] at hb
        rw [hb]
        exact h.cross a ha q hqmem
      · have hsl : rest.Sublist st.queuedQ := by
          rw [hqr, hql]
          exact List.Sublist.append_left (List.sublist_cons_self q l2) l1
        exact List.Pairwise.sublist hsl h.sorted_queue
      · intro a ha b hb heqp
        rcases List.mem_append.mp ha with hold | hnew
        · exact h.cross a hold b (hsubQ b hb) heqp
        · rw [List.mem_singleton] at hnew
          subst hnew
          rw [hqr] at hb
          rcases List.mem_append.mp hb with hb1 | hb2
          · exact absurd (heqp.symm.trans hqpool) (hl1 b hb1)
          · exact hq2l2 b hb2
      · intro id
        have hc := h.counts id
        have h1 := hcntm id
        have h2 := hqcntm id
        simp only [List.map_append, List.count_append, List.map_cons, List.map_nil,
          List.count_cons, List.count_nil, List.count_singleton', beq_iff_eq]
        by_cases h3 : c.1 = id
        · by_cases h4 : q.1 = id
          · rw [if_pos h3] at h1
            rw [if_pos h4] at h2
            rw [if_pos h3, if_pos h4]
            omega
          · rw [if_pos h3] at h1
            rw [if_neg h4] at h2
            rw [if_pos h3, if_neg h4]
            omega
        · by_cases h4 : q.1 = id
          · rw [if_neg h3] at h1
            rw [if_pos h4] at h2
            rw [if_neg h3, if_pos h4]
            omega
          · rw [if_neg h3] at h1
            rw [if_neg h4] at h2
            rw [if_neg h3, if_neg h4]
            omega
      · intro x hx
        rcases h.partition x hx with hd | hq
        · exact Or.inl (List.mem_append_left _ hd)
        · rw [hql] at hq
          rcases List.mem_append.mp hq with hq1 | hq2
          · exact Or.inr (by rw [hqr]; exact List.mem_append_left _ hq1)
          · rcases List.mem_cons.mp hq2 with hq3 | hq4
            · exact Or.inl (by rw [hq3]; exact List.mem_append_right _ (List.mem_singleton.mpr rfl))
            · exact Or.inr (by rw [hqr]; exact List.mem_append_right _ hq4)

theorem pinv_step (st : PoolSt) (e : PEvent) (h : PInv st) : PInv (pstep st e) := by
  cases e with
  | invoke pool => exact pinv_invoke st pool h
  | complete i => exact pinv_complete st i h

theorem pinv_foldl (events : List PEvent) (st : PoolSt) (h : PInv st) :
    PInv (events.foldl pstep st) := by
  induction events generalizing st with
  | nil => exact h
  | cons e rest ih => exact ih (pstep st e) (pinv_step st e h)

theorem pinv_reach (pools : List (String × Nat)) (events : List PEvent) :
    PInv (reach pools events) :=
  pinv_foldl events (initPool pools) (pinv_init pools)

theorem pstep_pools (st : PoolSt) (e : PEvent) : (pstep st e).pools = st.pools := by
  cases e with
  | invoke pool =>
    simp only [pstep]
    split <;> rfl
  | complete i =>
    cases hg : st.innerPending[i]? with
    | none => simp [pstep, hg]
    | some c =>
      cases hp : popPool c.2 st.queuedQ with
      | none => simp [pstep, hg, hp]
      | some x =>
        obtain ⟨q, rest⟩ := x
        simp [pstep, hg, hp]

theorem reach_pools (pools : List (String × Nat)) (events : List PEvent) :
    (reach pools events).pools = pools := by
  have hgen : ∀ (evs : List PEvent) (st : PoolSt), (evs.foldl pstep st).pools = st.pools := by
    intro evs
    induction evs with
    | nil => intro st; rfl
    | cons e rest ih =>
      intro st
      rw [List.foldl_cons, ih (pstep st e), pstep_pools]
  exact hgen events (initPool pools)

theorem pstep_complete_nextId (st : PoolSt) (i : Nat) :
    (pstep st (.complete i)).nextId = st.nextId := by
  cases hg : st.innerPending[i]? with
  | none => simp [pstep, hg]
  | some c =>
    cases hp : popPool c.2 st.queuedQ with
    | none => simp [pstep, hg, hp]
    | some x =>
      obtain ⟨q, rest⟩ := x
      simp [pstep, hg, hp]

theorem drain (n : Nat) : ∀ st : PoolSt, PInv st →
    st.innerPending.length + st.queuedQ.length = n →
    ((List.replicate n (PEvent.complete 0)).foldl pstep st).innerPending = [] ∧
    ((List.replicate n (PEvent.complete 0)).foldl pstep st).queuedQ = [] ∧
    ((List.replicate n (PEvent.complete 0)).foldl pstep st).nextId = st.nextId := by
  induction n with
  | zero =>
    intro st _ hm
    simp only [List.replicate_zero, List.foldl_nil]
    exact ⟨List.length_eq_zero.mp (by omega), List.length_eq_zero.mp (by omega), by trivial⟩
  | succ n ih =>
    intro st hinv hm
    have hpne : st.innerPending ≠ [] := by
      intro hpe
      have hqne : st.queuedQ ≠ [] := by
        intro hqe
        rw [hpe, hqe] at hm
        simp at hm
      obtain ⟨b, hb⟩ := List.exists_mem_of_ne_nil _ hqne
      obtain ⟨hne, hfull⟩ := hinv.queued_full b hb
      rw [hpe] at hfull
      simp [countPool] at hfull
      exact hne hfull.symm
    obtain ⟨hd, tl, hpl⟩ := List.exists_cons_of_ne_nil hpne
    have hg : st.innerPending[0]? = some hd := by
      rw [hpl]
      simp
    have hmeasure : (pstep st (.complete 0)).innerPending.length +
        (pstep st (.complete 0)).queuedQ.length = n := by
      cases hp : popPool hd.2 st.queuedQ with
      | none =>
        have heq : pstep st (.complete 0) = { st with
            innerPending := st.innerPending.eraseIdx 0,
            done := st.done ++ [hd.1] } := by
          simp [pstep, hg, hp]
        rw [heq]
        dsimp only
        rw [hpl]
        simp only [List.eraseIdx_cons_zero]
        rw [hpl] at hm
        simp only [List.length_cons] at hm
        omega
      | some x =>
        obtain ⟨q, rest⟩ := x
        obtain ⟨_, l1, l2, hql, hqr, _⟩ := popPool_some_spec hd.2 st.queuedQ q rest hp
        have heq : pstep st (.complete 0) = { st with
            innerPending := st.innerPending.eraseIdx 0 ++ [q],
            queuedQ := rest,
            done := st.done ++ [hd.1],
            deliveredLog := st.deliveredLog ++ [q] } := by
          simp [pstep, hg, hp]
        rw [heq]
        dsimp only
        rw [hpl]
        simp only [List.eraseIdx_cons_zero, List.length_append, List.length_singleton]
        rw [hpl] at hm
        simp only [List.length_cons] at hm
        have hlq : st.queuedQ.length = rest.length + 1 := by
          rw [hql, hqr]
          simp only [List.length_append, List.length_cons]
          omega
        omega
    have hstep : (List.replicate (n + 1) (PEvent.complete 0)).foldl pstep st =
        (List.replicate n (PEvent.complete 0)).foldl pstep (pstep st (.complete 0)) := by
      rw [List.replicate_succ, List.foldl_cons]
    rw [hstep]
    obtain ⟨h1, h2, h3⟩ := ih (pstep st (.complete 0))
      (pinv_step st (.complete 0) hinv) hmeasure
    exact ⟨h1, h2, by rw [h3, pstep_complete_nextId]⟩

/-- Claim C6: pool admission.  In every reachable state of the pooled
command runner, a named pool declared with depth `d > 0` has at most `d`
commands delivered to the wrapped runner and not yet completed, the
`console` pool has at most one such command regardless of declarations,
and every submitted command has either been delivered to the wrapped
runner or is still queued (commands beyond the limit are queued, never
dropped). -/
theorem c6_pool_admission (pools : List (String × Nat)) (events : List PEvent)
    (p : String) (d : Nat) (hp : p ≠ "") (hd : plookup p pools = some d)
    (hd0 : 0 < d) :
    countPool (reach pools events).innerPending p ≤ d ∧
    countPool (reach pools events).innerPending "console" ≤ 1 ∧
    (∀ c ∈ (reach pools events).submitted,
      c ∈ (reach pools events).deliveredLog ∨ c ∈ (reach pools events).queuedQ) := by
  have hinv := pinv_reach pools events
  have hpl := reach_pools pools events
  refine ⟨?_, ?_, hinv.partition⟩
  · by_cases hpc : p = "console"
    · have heff : effDepth pools p = 1 := by
        unfold effDepth
        rw [if_pos hpc]
      have h1 := hinv.count_le p (by rw [hpl, heff]; norm_num)
      rw [hpl, heff] at h1
      omega
    · have heff : effDepth pools p = d := by
        unfold effDepth
        rw [if_neg hpc, if_neg hp, hd]
        rfl
      have h1 := hinv.count_le p (by rw [hpl, heff]; omega)
      rw [hpl, heff] at h1
      exact h1
  · have heff : effDepth pools "console" = 1 := by
      unfold effDepth
      rw [if_pos rfl]
    have h1 := hinv.count_le "console" (by rw [hpl, heff]; norm_num)
    rw [hpl, heff] at h1
    exact h1

/-- Claim C6 witness: a pool of depth 1 receiving three submissions
never has more than one command in flight. -/
theorem c6_pool_admission_witness :
    countPool (reach [("b", 1)] [.invoke "b", .invoke "b", .invoke "b"]).innerPending
      "b" ≤ 1 :=
  (c6_pool_admission [("b", 1)] [.invoke "b", .invoke "b", .invoke "b"] "b" 1
    (by decide) rfl (by decide)).1

/-- Claim C7: within each pool, commands are delivered to the wrapped
runner in submission order (the delivery log, filtered to one pool, has
strictly increasing submission ids), and every submitted command's
completion callback is eventually invoked exactly once from within
`runCommands`: after enough completion turns the runner drains and the
callback log contains every submitted id exactly once. -/
theorem c7_pool_fifo_and_completion (pools : List (String × Nat))
    (events : List PEvent) :
    (∀ p, ((reach pools events).deliveredLog.filter
      (fun c => c.2 == p)).Pairwise (fun a b => a.1 < b.1)) ∧
    (∃ k,
      (reach pools (events ++ List.replicate k (.complete 0))).innerPending = [] ∧
      (reach pools (events ++ List.replicate k (.complete 0))).queuedQ = [] ∧
      ∀ id < (reach pools events).nextId,
        (reach pools (events ++ List.replicate k (.complete 0))).done.count id = 1) := by
  have hinv := pinv_reach pools events
  constructor
  · intro p
    have hpw := List.Pairwise.filter (fun c => c.2 == p) hinv.sorted_delivered
    apply List.Pairwise.imp_of_mem ?_ hpw
    intro a b ha hb hrel
    have ha2 : a.2 = p := by simpa using (List.mem_filter.mp ha).2
    have hb2 : b.2 = p := by simpa using (List.mem_filter.mp hb).2
    exact hrel (ha2.trans hb2.symm)
  · refine ⟨(reach pools events).innerPending.length +
      (reach pools events).queuedQ.length, ?_⟩
    have hsplit : ∀ more : List PEvent, reach pools (events ++ more) =
        more.foldl pstep (reach pools events) := by
      intro more
      unfold reach
      rw [List.foldl_append]
    rw [hsplit _]
    obtain ⟨h1, h2, h3⟩ := drain _ (reach pools events) hinv rfl
    refine ⟨h1, h2, ?_⟩
    intro id hid
    have hfinv := pinv_foldl (List.replicate
      ((reach pools events).innerPending.length +
        (reach pools events).queuedQ.length) (PEvent.complete 0))
      (reach pools events) hinv
    have hc := hfinv.counts id
    rw [h1, h2, h3] at hc
    simpa [if_pos hid] using hc

/-- Claim C7 witness: the ordering-and-completion theorem applied to a
concrete event sequence on a depth-1 pool. -/
theorem c7_pool_fifo_and_completion_witness :
    ((reach [("b", 1)] [.invoke "b", .invoke "b", .complete 0]).deliveredLog.filter
      (fun c => c.2 == "b")).Pairwise (fun a b => a.1 < b.1) :=
  (c7_pool_fifo_and_completion [("b", 1)] [.invoke "b", .invoke "b", .complete 0]).1 "b"

end Shuriken
